import Mathlib

/-!
Verification development for a uniprocessor real-time scheduling simulator.

The model below is a shallow embedding of the C++ sources: the task/job data
model (`Task.h`, `Job.h`), the four priority policies (`RateMonotonic.h`,
`EDF.h` with `DeadlineMonotonic`, `LeastSlackTime.h`), the two aperiodic
servers (`PollingServer.cpp`, `DeferrableServer.cpp`), the scheduling engine
(`Scheduler.cpp`: constructor, `calculateHyperperiod`, `run`), the field
mapping of the input parser (`FileReader.cpp`) and the exit behaviour of
`main.cpp`.

Conventions of the embedding:
- C++ `int` / `long long` values are modelled as `Int`; the C++ `%` and `/`
  on the nonnegative operands arising here agree with `Int.emod` / `Int.ediv`.
- Heap-allocated `Job*` objects are modelled as values; the engine mutates a
  job through exactly one pointer at a time and job ids produced by the
  engine are unique (a single incrementing counter), so identifying a job by
  `jobId` models pointer identity.
- `std::sort` with a comparator that is a strict total order (every policy
  breaks ties by `jobId`) has a unique result, modelled by `insertionSort`.
- Unbounded C++ loops (`gcd`, the hyperperiod extension loop) are modelled
  with explicit fuel that provably exceeds the number of iterations the
  source can perform, so that the definitions stay kernel-computable.
- File output is modelled by recording the name of the artifact a code path
  would write; console output is dropped.
-/

namespace RTS

/-- Task kinds, from `include/core/Task.h` (enum class TaskType). -/
inductive TaskType where
  | Periodic
  | Aperiodic
  | Sporadic
  | Poller
  | DeferrableServer
  | Background
deriving DecidableEq

/-- Static task parameters, from `include/core/Task.h` (struct Task). -/
structure Task where
  id : Int
  type : TaskType
  releaseTime : Int
  computationTime : Int
  period : Int
  relativeDeadline : Int
deriving DecidableEq

/-- Runtime job instance, from `include/core/Job.h` (struct Job). -/
structure Job where
  jobId : Int
  task : Task
  arrivalTime : Int
  absoluteDeadline : Int
  remainingExecutionTime : Int
  startTime : Int
  finishTime : Int
deriving DecidableEq

/-- The `Job` constructor: `Job(jId, t, arrival)`. -/
def mkJob (jId : Int) (t : Task) (arrival : Int) : Job :=
  { jobId := jId
    task := t
    arrivalTime := arrival
    absoluteDeadline := arrival + t.relativeDeadline
    remainingExecutionTime := t.computationTime
    startTime := -1
    finishTime := -1 }

/-- `Job::getSlack`. -/
def Job.getSlack (j : Job) (currentTime : Int) : Int :=
  (j.absoluteDeadline - currentTime) - j.remainingExecutionTime

/-- Timeline record, from `Scheduler.h` (struct TimelineEvent). -/
structure TimelineEvent where
  time : Int
  jobId : Int
  taskId : Int
  type : String
deriving DecidableEq

/-- Engine constants from `Scheduler.cpp` (scaled for the 0.1 quantum). -/
def SERVER_CAPACITY : Int := 20

/-- Server replenishment period in ticks (`Scheduler.cpp`). -/
def SERVER_PERIOD : Int := 50

/-- Reserved id of the synthesized server task (`Scheduler.cpp`). -/
def SERVER_TASK_ID : Int := 999

/-- Cap on the hyperperiod (`Scheduler.cpp`). -/
def SAFETY_LIMIT : Int := 10000

/-- One step of `Scheduler::gcd`, with fuel.  The C++ loop
`while (b != 0) { t = b; b = a % b; a = t; }` runs at most `b.natAbs`
iterations because `|a % b| < |b|` strictly decreases, so any fuel above
`b.natAbs` computes the loop exactly. -/
def gcdLoop : Nat → Int → Int → Int
  | 0, a, _ => a
  | fuel + 1, a, b => if b = 0 then a else gcdLoop fuel b (a % b)

/-- `Scheduler::gcd` (iterative Euclid on `int`). -/
def gcdI (a b : Int) : Int :=
  gcdLoop (b.natAbs + 1) a b

/-- The periodic-LCM phase of `Scheduler::calculateHyperperiod`: starting
from `h = 1`, fold the running LCM over tasks with positive period, capping
at `SAFETY_LIMIT` and stopping the scan (the `break`) once the cap is hit. -/
def lcmStep : List Task → Int → Int
  | [], h => h
  | task :: rest, h =>
    if task.period > 0 then
      let gcdVal := gcdI h task.period
      let h2 := h / gcdVal * task.period
      if h2 > SAFETY_LIMIT then SAFETY_LIMIT else lcmStep rest h2
    else lcmStep rest h

/-- The aperiodic-extension target of `calculateHyperperiod`: the maximum of
`releaseTime + computationTime + 200` over the aperiodic tasks (0 when there
are none).  200 is the scaled trailing buffer from the source. -/
def maxNeeded (aperiodicTasks : List Task) : Int :=
  aperiodicTasks.foldl
    (fun maxArrival task =>
      let neededTime := task.releaseTime + task.computationTime + 200
      if neededTime > maxArrival then neededTime else maxArrival)
    0

/-- The extension loop of `calculateHyperperiod`:
`while (extendedH < maxArrival && extendedH < SAFETY_LIMIT) extendedH += h;`
modelled with fuel.  Each iteration requires `acc < SAFETY_LIMIT` and adds
`base ≥ 1` (the pre-extension LCM is at least 1), so the loop runs at most
`SAFETY_LIMIT` times and fuel `SAFETY_LIMIT.toNat + 1` computes it exactly. -/
def extendLoop (base maxArrival : Int) : Int → Nat → Int
  | acc, 0 => acc
  | acc, fuel + 1 =>
    if acc < maxArrival ∧ acc < SAFETY_LIMIT then
      extendLoop base maxArrival (acc + base) fuel
    else acc

/-- `Scheduler::calculateHyperperiod`. -/
def calculateHyperperiod (periodicTasks aperiodicTasks : List Task) : Int :=
  let h := lcmStep periodicTasks 1
  let maxArrival := maxNeeded aperiodicTasks
  let h2 :=
    if h < maxArrival then extendLoop h maxArrival h (SAFETY_LIMIT.toNat + 1)
    else h
  if h2 > SAFETY_LIMIT then SAFETY_LIMIT else h2

/-- Specification-side running LCM over the positive periods of a task
list, used to compare `lcmStep` with the claim's words "the LCM of all
positive periods". -/
def specLcmFold (ts : List Task) (n : Nat) : Nat :=
  ts.foldl
    (fun acc task => if 0 < task.period then Nat.lcm acc task.period.toNat else acc) n

/-- The four priority policies selectable in `main.cpp`. -/
inductive AlgoKind where
  | RM
  | DM
  | EDF
  | LST
deriving DecidableEq

/-- The primary sorting key of each policy at time `t`:
period for RM, relative deadline for DM, absolute deadline for EDF,
slack for LST (from the four `pickNextJob` comparators). -/
def priorityKey (algo : AlgoKind) (t : Int) (j : Job) : Int :=
  match algo with
  | .RM => j.task.period
  | .DM => j.task.relativeDeadline
  | .EDF => j.absoluteDeadline
  | .LST => j.getSlack t

/-- The (non-strict, total) order each policy sorts by: ascending key with
ties broken by ascending `jobId`.  `jobLE algo t a b` holds exactly when the
C++ strict comparator does not place `b` before `a`. -/
def jobLE (algo : AlgoKind) (t : Int) (a b : Job) : Prop :=
  priorityKey algo t a < priorityKey algo t b ∨
    (priorityKey algo t a = priorityKey algo t b ∧ a.jobId ≤ b.jobId)

instance (algo : AlgoKind) (t : Int) : DecidableRel (jobLE algo t) := by
  intro a b
  unfold jobLE
  infer_instance

instance (algo : AlgoKind) (t : Int) : IsTotal Job (jobLE algo t) := by
  constructor
  intro a b
  unfold jobLE
  omega

instance (algo : AlgoKind) (t : Int) : IsTrans Job (jobLE algo t) := by
  constructor
  intro a b c hab hbc
  unfold jobLE at hab hbc ⊢
  omega

/-- The sort performed by every `pickNextJob` implementation (`std::sort`
with the policy comparator; the comparator is a strict total order on the
engine's jobs, so the sorted sequence is unique and `insertionSort` models
it). -/
def pickNextJob (algo : AlgoKind) (readyQueue : List Job) (t : Int) : List Job :=
  readyQueue.insertionSort (jobLE algo t)

/-- Result of an `IServer::run` call: the updated server job, the updated
aperiodic queue, the extended history, and the `bool` return value. -/
structure ServeResult where
  serverJob : Job
  aperiodicQueue : List Job
  history : List TimelineEvent
  ran : Bool
deriving DecidableEq

/-- `PollingServer::run` from `PollingServer.cpp`. -/
def pollingServerRun (serverJob : Job) (aperiodicQueue : List Job)
    (history : List TimelineEvent) (currentTime : Int) : ServeResult :=
  match aperiodicQueue with
  | aJob :: rest =>
    let history1 := history ++ [⟨currentTime, aJob.jobId, aJob.task.id, "ServerExec"⟩]
    let aJob1 := { aJob with remainingExecutionTime := aJob.remainingExecutionTime - 1 }
    let serverJob1 :=
      { serverJob with remainingExecutionTime := serverJob.remainingExecutionTime - 1 }
    if aJob1.remainingExecutionTime ≤ 0 then
      { serverJob := serverJob1
        aperiodicQueue := rest
        history := history1 ++ [⟨currentTime + 1, aJob.jobId, aJob.task.id, "AperiodicFinish"⟩]
        ran := true }
    else
      { serverJob := serverJob1
        aperiodicQueue := aJob1 :: rest
        history := history1
        ran := true }
  | [] =>
    { serverJob := { serverJob with remainingExecutionTime := 0 }
      aperiodicQueue := []
      history := history
      ran := false }

/-- `DeferrableServer::run` from `DeferrableServer.cpp`: identical to the
polling server when work is pending (with the `ServerExec(DS)` label); on an
empty queue it yields without touching the budget. -/
def deferrableServerRun (serverJob : Job) (aperiodicQueue : List Job)
    (history : List TimelineEvent) (currentTime : Int) : ServeResult :=
  match aperiodicQueue with
  | aJob :: rest =>
    let history1 := history ++ [⟨currentTime, aJob.jobId, aJob.task.id, "ServerExec(DS)"⟩]
    let aJob1 := { aJob with remainingExecutionTime := aJob.remainingExecutionTime - 1 }
    let serverJob1 :=
      { serverJob with remainingExecutionTime := serverJob.remainingExecutionTime - 1 }
    if aJob1.remainingExecutionTime ≤ 0 then
      { serverJob := serverJob1
        aperiodicQueue := rest
        history := history1 ++ [⟨currentTime + 1, aJob.jobId, aJob.task.id, "AperiodicFinish"⟩]
        ran := true }
    else
      { serverJob := serverJob1
        aperiodicQueue := aJob1 :: rest
        history := history1
        ran := true }
  | [] =>
    { serverJob := serverJob
      aperiodicQueue := []
      history := history
      ran := false }

/-- Mutable engine state during `Scheduler::run`.  `finishedJobs` is an
observation list: it records the value of each periodic/sporadic job at the
moment the source sets its `finishTime` and deletes it, so that properties
of completed jobs can be stated; the source itself only frees the job. -/
structure SchedState where
  readyQueue : List Job
  aperiodicQueue : List Job
  history : List TimelineEvent
  jobCounter : Int
  finishedJobs : List Job
deriving DecidableEq

/-- The scheduler configuration fixed at construction time. -/
structure SchedConfig where
  periodicTasks : List Task
  aperiodicTasks : List Task
  algo : AlgoKind
  serverPolicy : String
  hyperperiod : Int
deriving DecidableEq

/-- The synthesized server task built in the `Scheduler` constructor. -/
def serverTaskDefinition : Task :=
  { id := SERVER_TASK_ID
    type := .Periodic
    releaseTime := 0
    computationTime := SERVER_CAPACITY
    period := SERVER_PERIOD
    relativeDeadline := SERVER_PERIOD }

/-- `serverAlgo != nullptr`: a server strategy is installed exactly for the
policy strings "Poller" and "Deferrable". -/
def hasServer (policy : String) : Prop :=
  policy = "Poller" ∨ policy = "Deferrable"

instance (policy : String) : Decidable (hasServer policy) := by
  unfold hasServer
  infer_instance

/-- The `Scheduler` constructor: the hyperperiod is computed from the user
task set first, and only then is the server task appended to the periodic
set (so the server period does not enter the LCM computation). -/
def mkScheduler (pTasks aTasks : List Task) (algo : AlgoKind) (policy : String) :
    SchedConfig :=
  let h := calculateHyperperiod pTasks aTasks
  let pTasks2 := if hasServer policy then pTasks ++ [serverTaskDefinition] else pTasks
  { periodicTasks := pTasks2
    aperiodicTasks := aTasks
    algo := algo
    serverPolicy := policy
    hyperperiod := h }

/-- Replace the job with the given id (pointer identity in the source;
engine job ids are unique). -/
def updateJob (jid : Int) (f : Job → Job) (l : List Job) : List Job :=
  l.map fun j => if j.jobId = jid then f j else j

/-- `readyQueue.erase(std::find(..., job))`: remove the first job with the
given id. -/
def eraseJob (jid : Int) (l : List Job) : List Job :=
  l.eraseP fun j => decide (j.jobId = jid)

/-- The scheduling-identity fields of a job: everything the engine never
mutates after creation (`run` only writes `remainingExecutionTime`,
`startTime` and `finishTime`). -/
def Job.sameCore (a b : Job) : Prop :=
  a.jobId = b.jobId ∧ a.task = b.task ∧ a.arrivalTime = b.arrivalTime ∧
    a.absoluteDeadline = b.absoluteDeadline

/-- Number of jobs of the synthesized server task in a queue. -/
def countServer (l : List Job) : Nat :=
  (l.filter fun j => decide (j.task.id = SERVER_TASK_ID)).length

/-- Number of tasks carrying the reserved server id in a task list. -/
def countServerTasks (ts : List Task) : Nat :=
  (ts.filter fun tk => decide (tk.id = SERVER_TASK_ID)).length

/-- Step 0 of the tick loop: drop expired server jobs. -/
def cleanupPhase (s : SchedState) (t : Int) : SchedState :=
  { s with
    readyQueue :=
      s.readyQueue.filter fun j =>
        decide (¬(j.task.id = SERVER_TASK_ID ∧ j.absoluteDeadline ≤ t)) }

/-- Step 1: periodic/sporadic arrivals (the engine iterates `periodicTasks`
in input order and appends one job per matching task). -/
def periodicArrivalsPhase (cfg : SchedConfig) (s : SchedState) (t : Int) : SchedState :=
  cfg.periodicTasks.foldl
    (fun st task =>
      if t ≥ task.releaseTime ∧ (t - task.releaseTime) % task.period = 0 then
        { st with
          readyQueue := st.readyQueue ++ [mkJob st.jobCounter task t]
          jobCounter := st.jobCounter + 1 }
      else st)
    s

/-- Step 2: aperiodic arrivals, logging `AperiodicArrival`. -/
def aperiodicArrivalsPhase (cfg : SchedConfig) (s : SchedState) (t : Int) : SchedState :=
  cfg.aperiodicTasks.foldl
    (fun st task =>
      if t = task.releaseTime then
        { st with
          aperiodicQueue := st.aperiodicQueue ++ [mkJob st.jobCounter task t]
          history := st.history ++ [⟨t, st.jobCounter, task.id, "AperiodicArrival"⟩]
          jobCounter := st.jobCounter + 1 }
      else st)
    s

/-- Step 5 (the `else` of normal execution): background aperiodic execution
when the ready queue is empty, otherwise an `Idle` record. -/
def backgroundOrIdle (s : SchedState) (t : Int) : SchedState :=
  match s.readyQueue, s.aperiodicQueue with
  | [], aJob :: rest =>
    let history1 := s.history ++ [⟨t, aJob.jobId, aJob.task.id, "BackgroundRun"⟩]
    let aJob1 := { aJob with remainingExecutionTime := aJob.remainingExecutionTime - 1 }
    if aJob1.remainingExecutionTime ≤ 0 then
      { s with history := history1, aperiodicQueue := rest }
    else
      { s with history := history1, aperiodicQueue := aJob1 :: rest }
  | _, _ => { s with history := s.history ++ [⟨t, -1, -1, "Idle"⟩] }

/-- Step 4 on a chosen job with positive remaining time: set `startTime`,
log `Running`, decrement, and on completion log `Finish` at `t + 1`, remove
the job from the ready queue and record it in `finishedJobs`. -/
def executeJobStep (s : SchedState) (j : Job) (t : Int) : SchedState :=
  let j1 :=
    { j with
      startTime := if j.startTime = -1 then t else j.startTime
      remainingExecutionTime := j.remainingExecutionTime - 1 }
  let history1 := s.history ++ [⟨t, j.jobId, j.task.id, "Running"⟩]
  if j1.remainingExecutionTime ≤ 0 then
    let j2 := { j1 with finishTime := t + 1 }
    { s with
      history := history1 ++ [⟨t + 1, j.jobId, j.task.id, "Finish"⟩]
      readyQueue := eraseJob j.jobId s.readyQueue
      finishedJobs := s.finishedJobs ++ [j2] }
  else
    { s with
      history := history1
      readyQueue := updateJob j.jobId (fun _ => j1) s.readyQueue }

/-- Step 4 guard: `currentJob != nullptr && remaining > 0`, else step 5. -/
def normalExec (s : SchedState) (j : Job) (t : Int) : SchedState :=
  if j.remainingExecutionTime > 0 then executeJobStep s j t else backgroundOrIdle s t

/-- Steps 3-5 of the tick loop, on a state whose ready queue has already
been sorted by the priority policy: the scheduling decision (including the
server interception), normal execution, and background fall-through. -/
def executePhase (cfg : SchedConfig) (s : SchedState) (t : Int) : SchedState :=
  match s.readyQueue with
  | [] => backgroundOrIdle s t
  | bestJob :: _ =>
    if bestJob.task.id = SERVER_TASK_ID ∧ hasServer cfg.serverPolicy then
      if s.aperiodicQueue ≠ [] then
        let r :=
          if cfg.serverPolicy = "Poller" then
            pollingServerRun bestJob s.aperiodicQueue s.history t
          else
            deferrableServerRun bestJob s.aperiodicQueue s.history t
        let ready1 := updateJob bestJob.jobId (fun _ => r.serverJob) s.readyQueue
        let ready2 :=
          if r.serverJob.remainingExecutionTime ≤ 0 then
            eraseJob bestJob.jobId ready1
          else ready1
        { s with
          readyQueue := ready2
          aperiodicQueue := r.aperiodicQueue
          history := r.history }
      else
        if cfg.serverPolicy = "Poller" then
          let s1 := { s with readyQueue := eraseJob bestJob.jobId s.readyQueue }
          match s1.readyQueue with
          | [] => backgroundOrIdle s1 t
          | next :: _ => normalExec s1 next t
        else
          match s.readyQueue with
          | _ :: second :: _ => normalExec s second t
          | _ => backgroundOrIdle s t
    else normalExec s bestJob t

/-- Outcome of one tick: continue, or abort after a deadline miss. -/
inductive TickOutcome where
  | ok (s : SchedState)
  | aborted (s : SchedState)
deriving DecidableEq

/-- The first job failing the deadline check (server jobs are skipped). -/
def findMissJob (ready : List Job) (t : Int) : Option Job :=
  ready.find? fun j =>
    decide (j.task.id ≠ SERVER_TASK_ID ∧ t + 1 > j.absoluteDeadline)

/-- Step 6: the deadline check; on the first violation log `DEADLINE_MISS`
at `t + 1` and terminate. -/
def deadlineCheckPhase (s : SchedState) (t : Int) : TickOutcome :=
  match findMissJob s.readyQueue t with
  | some job =>
    .aborted
      { s with history := s.history ++ [⟨t + 1, job.jobId, job.task.id, "DEADLINE_MISS"⟩] }
  | none => .ok s

/-- The full body of the tick loop of `Scheduler::run` at tick `t`. -/
def tick (cfg : SchedConfig) (s : SchedState) (t : Int) : TickOutcome :=
  let s1 := cleanupPhase s t
  let s2 := periodicArrivalsPhase cfg s1 t
  let s3 := aperiodicArrivalsPhase cfg s2 t
  let s4 := { s3 with readyQueue := pickNextJob cfg.algo s3.readyQueue t }
  let s5 := executePhase cfg s4 t
  deadlineCheckPhase s5 t

/-- Result of `Scheduler::run`: the final state and whether the run was
aborted by a deadline miss. -/
structure RunResult where
  finalState : SchedState
  missed : Bool
deriving DecidableEq

/-- The tick loop over the given list of ticks. -/
def runLoop (cfg : SchedConfig) : SchedState → List Int → RunResult
  | s, [] => { finalState := s, missed := false }
  | s, t :: ts =>
    match tick cfg s t with
    | .ok s1 => runLoop cfg s1 ts
    | .aborted s1 => { finalState := s1, missed := true }

/-- The initial state of `Scheduler::run` (`jobCounter = 1`). -/
def initState : SchedState :=
  { readyQueue := [], aperiodicQueue := [], history := [], jobCounter := 1,
    finishedJobs := [] }

/-- The ticks `0, 1, ..., hyperperiod - 1`. -/
def ticksOf (cfg : SchedConfig) : List Int :=
  (List.range cfg.hyperperiod.toNat).map Int.ofNat

/-- `Scheduler::run`. -/
def runScheduler (cfg : SchedConfig) : RunResult :=
  runLoop cfg initState (ticksOf cfg)

/-- The files `Scheduler::run` exports: `output_ABORTED.txt` exactly when a
deadline miss aborts the run. -/
def RunResult.artifacts (r : RunResult) : List String :=
  if r.missed then ["output_ABORTED.txt"] else []

/-- The engine state reached before tick `k` of `Scheduler::run` (`none`
once the run has aborted). -/
def stateBefore (cfg : SchedConfig) : Nat → Option SchedState
  | 0 => some initState
  | k + 1 =>
    match stateBefore cfg k with
    | some s =>
      match tick cfg s (Int.ofNat k) with
      | .ok s1 => some s1
      | .aborted _ => none
    | none => none

/-- The engine state at tick `t` right after the expired-server cleanup and
the periodic and aperiodic arrival steps (steps 0-2 of the tick loop),
before the priority sort. -/
def arrivalsState (cfg : SchedConfig) (s : SchedState) (t : Int) : SchedState :=
  aperiodicArrivalsPhase cfg (periodicArrivalsPhase cfg (cleanupPhase s t) t) t

/-- Invariant carried between ticks of `Scheduler::run`: the ready queue
holds at most one server job, job ids are distinct and below the counter,
and every server job was created by the synthesized server task at a
release boundary of the current server window. -/
def ServerInv (s : SchedState) (t : Int) : Prop :=
  countServer s.readyQueue ≤ 1 ∧
    (s.readyQueue.map Job.jobId).Nodup ∧
    (∀ j ∈ s.readyQueue, j.jobId < s.jobCounter) ∧
    (∀ j ∈ s.readyQueue, j.task.id = SERVER_TASK_ID →
      j.task = serverTaskDefinition ∧
      j.absoluteDeadline = j.arrivalTime + SERVER_PERIOD ∧
      0 ≤ j.arrivalTime ∧ j.arrivalTime % SERVER_PERIOD = 0 ∧
      j.arrivalTime < t ∧ t ≤ j.arrivalTime + SERVER_PERIOD)

/-- The algorithm-menu dispatch of `main.cpp` (choices 1-4; anything else
falls back to Rate Monotonic). -/
def algoOfChoice (choice : Int) : AlgoKind :=
  if choice = 1 then .RM
  else if choice = 2 then .DM
  else if choice = 3 then .EDF
  else if choice = 4 then .LST
  else .RM

/-- `main.cpp`: exit status and the list of files written.  With no parsed
tasks it reports an error and exits 1; otherwise it runs the engine, always
exports `output.txt`, and exits 0 (a deadline miss additionally produced
`output_ABORTED.txt` inside `run`). -/
def progMain (pTasks aTasks : List Task) (choice : Int) (policy : String) :
    Int × List String :=
  if pTasks = [] ∧ aTasks = [] then (1, [])
  else
    let r := runScheduler (mkScheduler pTasks aTasks (algoOfChoice choice) policy)
    (0, r.artifacts ++ ["output.txt"])

/-- Parser field mapping of `FileReader::readInputFile` for one input line
(file handling and the double-to-tick scaling are outside this model; the
raw numbers are modelled as rationals).  Returns `(release, wcet, period,
deadline)` exactly as the `MAPPING LOGIC` block assigns `r_d, e_d, p_d,
d_d`. -/
def mapFields (type : TaskType) (rawNumbers : List ℚ) : ℚ × ℚ × ℚ × ℚ :=
  let base :=
    if rawNumbers.length = 2 then
      (0, rawNumbers.getD 0 0, rawNumbers.getD 1 0, rawNumbers.getD 1 0)
    else if rawNumbers.length = 3 then
      if type = TaskType.Sporadic then
        (0, rawNumbers.getD 0 0, rawNumbers.getD 1 0, rawNumbers.getD 2 0)
      else
        (rawNumbers.getD 0 0, rawNumbers.getD 1 0, rawNumbers.getD 2 0,
          rawNumbers.getD 2 0)
    else if rawNumbers.length ≥ 4 then
      (rawNumbers.getD 0 0, rawNumbers.getD 1 0, rawNumbers.getD 2 0,
        rawNumbers.getD 3 0)
    else (0, 0, 0, 0)
  if type = TaskType.Aperiodic ∧ rawNumbers.length = 2 then
    (rawNumbers.getD 0 0, rawNumbers.getD 1 0, 0, 0)
  else base

/-- The leading line token of the input format. -/
inductive LineKind where
  | P
  | D
  | A
deriving DecidableEq

/-- The task kind assigned to each leading token by
`FileReader::readInputFile`. -/
def lineTaskType : LineKind → TaskType
  | .P => .Periodic
  | .D => .Sporadic
  | .A => .Aperiodic

/-! ### Concrete task sets used to evaluate the model -/

/-- A periodic task with a long period and a loose deadline. -/
def T1c : Task :=
  { id := 1, type := .Periodic, releaseTime := 0, computationTime := 1,
    period := 10, relativeDeadline := 10 }

/-- A periodic task with a constrained deadline equal to its wcet. -/
def T2c : Task :=
  { id := 2, type := .Periodic, releaseTime := 0, computationTime := 2,
    period := 10, relativeDeadline := 2 }

/-- First task of an infeasible pair (total utilisation 4/3). -/
def U1c : Task :=
  { id := 1, type := .Periodic, releaseTime := 0, computationTime := 2,
    period := 2, relativeDeadline := 2 }

/-- Second task of an infeasible pair. -/
def U2c : Task :=
  { id := 2, type := .Periodic, releaseTime := 0, computationTime := 1,
    period := 3, relativeDeadline := 3 }

/-- A sample job used to instantiate universally quantified theorems. -/
def jA : Job := mkJob 1 T1c 0

/-- A second sample job with a tighter deadline. -/
def jB : Job := mkJob 2 T2c 0

end RTS

namespace RTS

/-! ### Theorems -/

/-- Helper: `jobLE` in both directions forces equal key and equal job id. -/
theorem jobLE_antisymm_fields {algo : AlgoKind} {t : Int} {a b : Job}
    (hab : jobLE algo t a b) (hba : jobLE algo t b a) :
    priorityKey algo t a = priorityKey algo t b ∧ a.jobId = b.jobId := by
  unfold jobLE at hab hba
  omega

/-- Helper: a list sorted by a policy order is determined by its multiset of
jobs, provided job ids are distinct (as the engine guarantees).  This is
what makes the unstable `std::sort` deterministic here. -/
theorem jobLE_sorted_perm_eq (algo : AlgoKind) (t : Int) :
    ∀ l1 l2 : List Job, l1.Perm l2 → l1.Pairwise (jobLE algo t) →
      l2.Pairwise (jobLE algo t) → (l1.map Job.jobId).Nodup → l1 = l2 := by
  intro l1
  induction l1 with
  | nil =>
    intro l2 hp _ _ _
    exact (List.Perm.eq_nil hp.symm).symm
  | cons h1 t1 ih =>
    intro l2 hp hs1 hs2 hnd
    cases l2 with
    | nil => exact absurd (List.Perm.eq_nil hp) (by simp)
    | cons h2 t2 =>
      have hh : h1 = h2 := by
        by_cases hcase : h1 = h2
        · exact hcase
        · have m1 : h1 ∈ t2 := by
            have : h1 ∈ h2 :: t2 := hp.subset (List.mem_cons_self _ _)
            simpa [hcase] using this
          have m2 : h2 ∈ t1 := by
            have : h2 ∈ h1 :: t1 := hp.symm.subset (List.mem_cons_self _ _)
            rcases List.mem_cons.mp this with h | h
            · exact absurd h.symm hcase
            · exact h
          have hab : jobLE algo t h1 h2 := List.rel_of_pairwise_cons hs1 m2
          have hba : jobLE algo t h2 h1 := List.rel_of_pairwise_cons hs2 m1
          have hid : h1.jobId = h2.jobId := (jobLE_antisymm_fields hab hba).2
          have hnd1 : (∀ x ∈ t1, ¬x.jobId = h1.jobId) ∧
              (t1.map Job.jobId).Nodup := by simpa using hnd
          exact absurd hid.symm (hnd1.1 h2 m2)
      subst hh
      have hptl : t1.Perm t2 := hp.cons_inv
      have hnd1 : (∀ x ∈ t1, ¬x.jobId = h1.jobId) ∧
          (t1.map Job.jobId).Nodup := by simpa using hnd
      have := ih t2 hptl hs1.of_cons hs2.of_cons hnd1.2
      simp [this]

/-- C8: for a fixed task set, priority algorithm and server-policy name, two
executions of `Scheduler::run` produce the same event history.  The model is
a function, so runs on equal inputs are equal; the second conjunct certifies
that the only implementation freedom in the source - the order produced by
the unstable `std::sort` - is uniquely determined, because any two sorted
permutations of a ready queue with distinct job ids coincide. -/
theorem c8_determinism :
    (∀ (pTasks aTasks : List Task) (algo : AlgoKind) (policy : String)
        (r1 r2 : RunResult),
        r1 = runScheduler (mkScheduler pTasks aTasks algo policy) →
        r2 = runScheduler (mkScheduler pTasks aTasks algo policy) →
        r1.finalState.history = r2.finalState.history) ∧
    (∀ (algo : AlgoKind) (t : Int) (l1 l2 : List Job),
        l1.Perm l2 →
        l1.Pairwise (jobLE algo t) → l2.Pairwise (jobLE algo t) →
        (l1.map Job.jobId).Nodup → l1 = l2) := by
  constructor
  · intro _ _ _ _ r1 r2 h1 h2
    rw [h1, h2]
  · exact jobLE_sorted_perm_eq

/-- C8 witness: the determinism theorem applied to a concrete task set and
a concrete pair of sorted permutations. -/
theorem c8_determinism_witness :
    (runScheduler (mkScheduler [T1c] [] .RM "Background")).finalState.history =
      (runScheduler (mkScheduler [T1c] [] .RM "Background")).finalState.history ∧
    [jA, jB] = [jA, jB] := by
  constructor
  · exact c8_determinism.1 [T1c] [] .RM "Background" _ _ rfl rfl
  · exact c8_determinism.2 .RM 0 [jA, jB] [jA, jB] (List.Perm.refl _)
      (by decide) (by decide) (by decide)

end RTS

namespace RTS

/-- C9 counterexample: a three-number `D` line does not use the `P` field
shape.  `D 2 3 5` yields release 0, wcet 2, period 3, deadline 5, whereas
the claim's shape `(release, wcet, period)` with `deadline = period` would
yield `(2, 3, 5, 5)` - which is what a three-number `P` line yields. -/
theorem c9_sporadic_mapping_counterexample :
    mapFields TaskType.Sporadic [2, 3, 5] = (0, 2, 3, 5) ∧
      mapFields TaskType.Sporadic [2, 3, 5] ≠ (2, 3, 5, 5) ∧
      mapFields TaskType.Periodic [2, 3, 5] = (2, 3, 5, 5) := by
  refine ⟨by decide, by decide, by decide⟩

/-- C9 amended: a `D` line is parsed as a sporadic task and shares the `P`
field shapes for two and at-least-four numbers, but a three-number `D` line
maps its numbers to `(wcet, period, deadline)` with release 0, unlike a
three-number `P` line, which maps them to `(release, wcet, period)` with
deadline = period. -/
theorem c9_sporadic_mapping (a b c d : ℚ) :
    lineTaskType .D = .Sporadic ∧
      mapFields TaskType.Sporadic [a, b, c] = (0, a, b, c) ∧
      mapFields TaskType.Periodic [a, b, c] = (a, b, c, c) ∧
      mapFields TaskType.Sporadic [a, b] = mapFields TaskType.Periodic [a, b] ∧
      mapFields TaskType.Sporadic [a, b, c, d] =
        mapFields TaskType.Periodic [a, b, c, d] := by
  refine ⟨rfl, ?_, ?_, ?_, ?_⟩ <;> simp [mapFields]

/-- C5 counterexample: on an infeasible task set the run aborts with a
deadline miss (and produces the failure artifact), yet `main` still exits
with status 0, contradicting the claimed nonzero exit status. -/
theorem c5_exit_status_counterexample :
    (runScheduler (mkScheduler [U1c, U2c] [] (algoOfChoice 1) "Background")).missed
        = true ∧
      (progMain [U1c, U2c] [] 1 "Background").1 = 0 := by
  refine ⟨by decide, by decide⟩

/-- C5 amended: the program exits 1 exactly when no tasks were parsed and
exits 0 otherwise - also after a deadline miss, in which case the failure
artifact `output_ABORTED.txt` is produced in addition to `output.txt`. -/
theorem c5_exit_status (pTasks aTasks : List Task) (choice : Int) (policy : String) :
    ((progMain pTasks aTasks choice policy).1 = 1 ↔ pTasks = [] ∧ aTasks = []) ∧
      (¬(pTasks = [] ∧ aTasks = []) → (progMain pTasks aTasks choice policy).1 = 0) ∧
      (¬(pTasks = [] ∧ aTasks = []) →
        (runScheduler (mkScheduler pTasks aTasks (algoOfChoice choice) policy)).missed
            = true →
        "output_ABORTED.txt" ∈ (progMain pTasks aTasks choice policy).2) := by
  unfold progMain
  by_cases h : pTasks = [] ∧ aTasks = []
  · simp [h]
  · refine ⟨by simp [h], fun _ => by simp [h], fun _ hm => ?_⟩
    simp [h, RunResult.artifacts, hm]

/-- C5 witness: the amended exit-status theorem at the infeasible set. -/
theorem c5_exit_status_witness :
    "output_ABORTED.txt" ∈ (progMain [U1c, U2c] [] 1 "Background").2 :=
  (c5_exit_status [U1c, U2c] [] 1 "Background").2.2 (by decide) (by decide)

/-- C1, evaluated at the failing input: with tasks `T1c` (id 1, wcet 1,
period 10, deadline 10) and `T2c` (id 2, wcet 2, period 10, deadline 2)
under Rate Monotonic, the run completes with no `DEADLINE_MISS` event, yet
the job of `T2c` is recorded as finished at time 3 while its arrival plus
relative deadline is 2: the end-of-tick check `t + 1 <= abs_deadline` never
sees a job that executes during the tick starting at its deadline, because
completion removes it from the ready queue before the check runs. -/
theorem c1_deadline_safety_violation :
    (runScheduler (mkScheduler [T1c, T2c] [] .RM "Background")).missed = false ∧
      ((runScheduler (mkScheduler [T1c, T2c] [] .RM "Background")).finalState.history.filter
          (fun e => decide (e.type = "DEADLINE_MISS"))) = [] ∧
      TimelineEvent.mk 3 2 2 "Finish" ∈
        (runScheduler (mkScheduler [T1c, T2c] [] .RM "Background")).finalState.history ∧
      ((runScheduler (mkScheduler [T1c, T2c] [] .RM "Background")).finalState.finishedJobs.filter
          (fun j =>
            decide ((j.task.type = TaskType.Periodic ∨ j.task.type = TaskType.Sporadic) ∧
              j.arrivalTime + j.task.relativeDeadline < j.finishTime))) ≠ [] := by
  refine ⟨by decide, by decide, by decide, by decide⟩

end RTS

namespace RTS

/-- Helper: `jobLE` implies the keys are ordered. -/
theorem jobLE_key_le {algo : AlgoKind} {t : Int} {a b : Job}
    (h : jobLE algo t a b) : priorityKey algo t a ≤ priorityKey algo t b := by
  unfold jobLE at h
  omega

/-- C7: every policy sorts the ready queue into a permutation ordered by its
key - task period for RM, task relative deadline for DM, absolute deadline
for EDF, slack for LST - with equal keys ordered by ascending job id, and
the resulting front minimizes the key over the queue. -/
theorem c7_priority_policy_ordering (algo : AlgoKind) (ready : List Job) (t : Int) :
    (∀ j : Job, priorityKey .RM t j = j.task.period) ∧
      (∀ j : Job, priorityKey .DM t j = j.task.relativeDeadline) ∧
      (∀ j : Job, priorityKey .EDF t j = j.absoluteDeadline) ∧
      (∀ j : Job, priorityKey .LST t j = j.absoluteDeadline - t - j.remainingExecutionTime) ∧
      (pickNextJob algo ready t).Perm ready ∧
      (pickNextJob algo ready t).Pairwise (jobLE algo t) ∧
      (∀ front, (pickNextJob algo ready t).head? = some front →
        ∀ j ∈ ready, priorityKey algo t front ≤ priorityKey algo t j) := by
  refine ⟨fun _ => rfl, fun _ => rfl, fun _ => rfl,
    fun j => ?_, List.perm_insertionSort _ _, List.sorted_insertionSort _ _, ?_⟩
  · show j.getSlack t = _
    unfold Job.getSlack
    ring
  · intro front hfront j hj
    have hperm := List.perm_insertionSort (jobLE algo t) ready
    have hj2 : j ∈ pickNextJob algo ready t := by
      exact (hperm.mem_iff).mpr hj
    have hsorted : (pickNextJob algo ready t).Pairwise (jobLE algo t) :=
      List.sorted_insertionSort _ _
    cases hq : pickNextJob algo ready t with
    | nil => simp [hq] at hfront
    | cons a rest =>
      have ha : a = front := by
        simpa [hq] using hfront
      subst ha
      rw [hq] at hj2 hsorted
      rcases List.mem_cons.mp hj2 with h | h
      · exact le_of_eq (by rw [h])
      · exact jobLE_key_le (List.rel_of_pairwise_cons hsorted h)

/-- C7 witness: the ordering theorem at a concrete two-job queue under EDF
(where `jB` has the earlier absolute deadline). -/
theorem c7_priority_policy_ordering_witness :
    priorityKey .EDF 0 jB ≤ priorityKey .EDF 0 jA :=
  (c7_priority_policy_ordering .EDF [jA, jB] 0).2.2.2.2.2.2 jB (by decide) jA
    (by decide)

end RTS

namespace RTS

/-- Helper: `sameCore` is reflexive. -/
theorem Job.sameCore_refl (j : Job) : j.sameCore j :=
  ⟨rfl, rfl, rfl, rfl⟩

/-- Helper: updating a job id that does not occur leaves the list alone. -/
theorem updateJob_not_mem (f : Job → Job) (jid : Int) :
    ∀ l : List Job, (∀ j ∈ l, j.jobId ≠ jid) → updateJob jid f l = l := by
  intro l
  induction l with
  | nil => intro _; rfl
  | cons a as ih =>
    intro hl
    unfold updateJob at ih ⊢
    simp only [List.map_cons]
    rw [if_neg (hl a (by simp)), ih fun j hj => hl j (by simp [hj])]

/-- Helper: updating the id of the head job rewrites the head, and only the
head when the id occurs nowhere else. -/
theorem updateJob_cons_head (f : Job → Job) (h : Job) (rest : List Job)
    (hi : ∀ j ∈ rest, j.jobId ≠ h.jobId) :
    updateJob h.jobId f (h :: rest) = f h :: rest := by
  unfold updateJob
  have hr := updateJob_not_mem f h.jobId rest hi
  unfold updateJob at hr
  simp [hr]

/-- Helper: erasing the id of the head job drops exactly the head. -/
theorem eraseJob_cons_head (h : Job) (rest : List Job) :
    eraseJob h.jobId (h :: rest) = rest := by
  unfold eraseJob
  exact List.eraseP_cons_of_pos (by simp)

/-- Helper: erasing an id skips a non-matching head. -/
theorem eraseJob_cons_skip (jid : Int) (h : Job) (rest : List Job)
    (hne : h.jobId ≠ jid) :
    eraseJob jid (h :: rest) = h :: eraseJob jid rest := by
  unfold eraseJob
  exact List.eraseP_cons_of_neg (by simp [hne])

/-- Helper: members of an updated list are members or images of members. -/
theorem mem_updateJob {j2 : Job} {jid : Int} {f : Job → Job} {l : List Job}
    (hm : j2 ∈ updateJob jid f l) :
    ∃ j ∈ l, j2 = if j.jobId = jid then f j else j := by
  unfold updateJob at hm
  rcases List.mem_map.mp hm with ⟨j, hj, hEq⟩
  exact ⟨j, hj, hEq.symm⟩

/-- Helper: members of an erased list are members of the original. -/
theorem mem_eraseJob {j2 : Job} {jid : Int} {l : List Job}
    (hm : j2 ∈ eraseJob jid l) : j2 ∈ l :=
  (List.eraseP_sublist l).mem hm

/-- Helper: background or idle execution does not touch the ready queue. -/
theorem backgroundOrIdle_ready (s : SchedState) (t : Int) :
    (backgroundOrIdle s t).readyQueue = s.readyQueue := by
  unfold backgroundOrIdle
  split
  · dsimp only
    split_ifs <;> rfl
  · rfl

/-- Helper: every job in the ready queue after a normal execution step has
the core fields of a job that was already in the queue. -/
theorem executeJobStep_ready_core (s : SchedState) (j : Job) (t : Int)
    (hj : j ∈ s.readyQueue) :
    ∀ j2 ∈ (executeJobStep s j t).readyQueue,
      ∃ j0 ∈ s.readyQueue, j2.sameCore j0 := by
  intro j2 hj2
  unfold executeJobStep at hj2
  dsimp only at hj2
  by_cases hfin : j.remainingExecutionTime - 1 ≤ 0
  · rw [if_pos hfin] at hj2
    exact ⟨j2, mem_eraseJob (by simpa using hj2), Job.sameCore_refl j2⟩
  · rw [if_neg hfin] at hj2
    rcases mem_updateJob (by simpa using hj2) with ⟨j0, hj0, hEq⟩
    by_cases hid : j0.jobId = j.jobId
    · rw [hEq, if_pos hid]
      exact ⟨j, hj, ⟨rfl, rfl, rfl, rfl⟩⟩
    · rw [hEq, if_neg hid]
      exact ⟨j0, hj0, Job.sameCore_refl j0⟩

/-- Helper: the same for the guarded normal-execution step. -/
theorem normalExec_ready_core (s : SchedState) (j : Job) (t : Int)
    (hj : j ∈ s.readyQueue) :
    ∀ j2 ∈ (normalExec s j t).readyQueue,
      ∃ j0 ∈ s.readyQueue, j2.sameCore j0 := by
  intro j2 hj2
  unfold normalExec at hj2
  split_ifs at hj2 with hrun
  · exact executeJobStep_ready_core s j t hj j2 hj2
  · rw [backgroundOrIdle_ready] at hj2
    exact ⟨j2, hj2, Job.sameCore_refl j2⟩

/-- Helper: the polling server never changes the identity fields of the
server job. -/
theorem pollingServerRun_serverJob_core (srv : Job) (q : List Job)
    (h : List TimelineEvent) (t : Int) :
    (pollingServerRun srv q h t).serverJob.sameCore srv := by
  unfold pollingServerRun
  rcases q with _ | ⟨a, rest⟩
  · exact ⟨rfl, rfl, rfl, rfl⟩
  · dsimp only
    split_ifs <;> exact ⟨rfl, rfl, rfl, rfl⟩

/-- Helper: the deferrable server never changes the identity fields of the
server job. -/
theorem deferrableServerRun_serverJob_core (srv : Job) (q : List Job)
    (h : List TimelineEvent) (t : Int) :
    (deferrableServerRun srv q h t).serverJob.sameCore srv := by
  unfold deferrableServerRun
  rcases q with _ | ⟨a, rest⟩
  · exact ⟨rfl, rfl, rfl, rfl⟩
  · dsimp only
    split_ifs <;> exact ⟨rfl, rfl, rfl, rfl⟩

end RTS

namespace RTS

/-- C3: when the sorted ready queue's front is the server job under the
Polling policy, a non-empty pending queue makes the engine execute one tick
of the head aperiodic job, debiting one tick from both that job's remaining
time and the server budget, logging `ServerExec` (and `AperiodicFinish` at
`t + 1` with removal of the job, on completion); an empty pending queue
makes it forfeit the whole server budget by removing the server job from
the ready queue, and the new front of the ready queue executes within the
same tick. -/
theorem c3_polling_server (cfg : SchedConfig) (s : SchedState) (t : Int)
    (srv : Job) (rest : List Job)
    (hpol : cfg.serverPolicy = "Poller")
    (hready : s.readyQueue = srv :: rest)
    (hsrv : srv.task.id = SERVER_TASK_ID)
    (hids : ∀ j ∈ rest, j.jobId ≠ srv.jobId) :
    (∀ aJob arest, s.aperiodicQueue = aJob :: arest →
        (executePhase cfg s t).aperiodicQueue =
          (if aJob.remainingExecutionTime - 1 ≤ 0 then arest
           else { aJob with
                    remainingExecutionTime := aJob.remainingExecutionTime - 1 } :: arest) ∧
        (executePhase cfg s t).readyQueue =
          (if srv.remainingExecutionTime - 1 ≤ 0 then rest
           else { srv with
                    remainingExecutionTime := srv.remainingExecutionTime - 1 } :: rest) ∧
        (executePhase cfg s t).history =
          s.history ++ [⟨t, aJob.jobId, aJob.task.id, "ServerExec"⟩] ++
            (if aJob.remainingExecutionTime - 1 ≤ 0 then
               [⟨t + 1, aJob.jobId, aJob.task.id, "AperiodicFinish"⟩]
             else [])) ∧
    (s.aperiodicQueue = [] →
        (∀ j ∈ (executePhase cfg s t).readyQueue, j.jobId ≠ srv.jobId) ∧
        (∀ next nrest, rest = next :: nrest → next.remainingExecutionTime > 0 →
          TimelineEvent.mk t next.jobId next.task.id "Running" ∈
            (executePhase cfg s t).history)) := by
  constructor
  · intro aJob arest hap
    have hstep :
        executePhase cfg s t =
          (let r := pollingServerRun srv s.aperiodicQueue s.history t
           let ready1 := updateJob srv.jobId (fun _ => r.serverJob) s.readyQueue
           let ready2 :=
             if r.serverJob.remainingExecutionTime ≤ 0 then eraseJob srv.jobId ready1
             else ready1
           { s with
             readyQueue := ready2
             aperiodicQueue := r.aperiodicQueue
             history := r.history }) := by
      unfold executePhase
      rw [hready]
      dsimp only
      rw [if_pos ⟨hsrv, Or.inl hpol⟩, if_pos (by simp [hap]), if_pos hpol]
    rw [hstep]
    simp only [pollingServerRun, hap]
    dsimp only
    by_cases hfin : aJob.remainingExecutionTime - 1 ≤ 0
    · rw [if_pos hfin]
      dsimp only
      refine ⟨by simp [hfin], ?_, by simp [hfin]⟩
      rw [hready, updateJob_cons_head _ _ _ hids]
      by_cases hsrvfin : srv.remainingExecutionTime - 1 ≤ 0
      · rw [if_pos hsrvfin, if_pos hsrvfin]
        exact eraseJob_cons_head
          { srv with remainingExecutionTime := srv.remainingExecutionTime - 1 } rest
      · rw [if_neg hsrvfin, if_neg hsrvfin]
    · rw [if_neg hfin]
      dsimp only
      refine ⟨by simp [hfin], ?_, by simp [hfin]⟩
      rw [hready, updateJob_cons_head _ _ _ hids]
      by_cases hsrvfin : srv.remainingExecutionTime - 1 ≤ 0
      · rw [if_pos hsrvfin, if_pos hsrvfin]
        exact eraseJob_cons_head
          { srv with remainingExecutionTime := srv.remainingExecutionTime - 1 } rest
      · rw [if_neg hsrvfin, if_neg hsrvfin]
  · intro hap
    have hstep :
        executePhase cfg s t =
          (let s1 := { s with readyQueue := eraseJob srv.jobId s.readyQueue }
           match s1.readyQueue with
           | [] => backgroundOrIdle s1 t
           | next :: _ => normalExec s1 next t) := by
      unfold executePhase
      rw [hready]
      dsimp only
      rw [if_pos ⟨hsrv, Or.inl hpol⟩, if_neg (by simp [hap]), if_pos hpol]
    rw [hready, eraseJob_cons_head] at hstep
    cases hrest : rest with
    | nil =>
      subst hrest
      rw [hstep]
      constructor
      · intro j hj
        rw [backgroundOrIdle_ready] at hj
        simp at hj
      · intro next nrest h
        exact absurd h (by simp)
    | cons next nrest =>
      subst hrest
      rw [hstep]
      constructor
      · intro j hj
        have hnext : next ∈ ({ s with readyQueue := next :: nrest } :
            SchedState).readyQueue := by simp
        rcases normalExec_ready_core _ next t hnext j hj with ⟨j0, hj0, hcore⟩
        have : j0 ∈ next :: nrest := hj0
        rw [hcore.1]
        exact hids j0 this
      · intro next2 nrest2 hEq hrun
        cases hEq
        simp only [normalExec, hrun, if_pos]
        unfold executeJobStep
        dsimp only
        split_ifs <;> simp

/-- C3 witness: the polling-server theorem at a concrete state in which the
server job heads the queue and one aperiodic job with two remaining ticks is
pending. -/
theorem c3_polling_server_witness :
    (executePhase
        { periodicTasks := [T1c, serverTaskDefinition], aperiodicTasks := [T2c],
          algo := .RM, serverPolicy := "Poller", hyperperiod := 10 }
        { readyQueue := [mkJob 2 serverTaskDefinition 0, jA],
          aperiodicQueue := [mkJob 3 T2c 0], history := [], jobCounter := 4,
          finishedJobs := [] } 0).aperiodicQueue =
      [{ mkJob 3 T2c 0 with remainingExecutionTime := 1 }] := by
  have h := (c3_polling_server
    { periodicTasks := [T1c, serverTaskDefinition], aperiodicTasks := [T2c],
      algo := .RM, serverPolicy := "Poller", hyperperiod := 10 }
    { readyQueue := [mkJob 2 serverTaskDefinition 0, jA],
      aperiodicQueue := [mkJob 3 T2c 0], history := [], jobCounter := 4,
      finishedJobs := [] } 0
    (mkJob 2 serverTaskDefinition 0) [jA] rfl rfl (by decide)
    (by decide)).1 (mkJob 3 T2c 0) [] rfl
  rw [h.1]
  decide

end RTS

namespace RTS

/-- Helper: a job whose id is not the updated one stays in the list. -/
theorem updateJob_mem_self {j : Job} {l : List Job} (hl : j ∈ l) {jid : Int}
    (hne : j.jobId ≠ jid) (f : Job → Job) : j ∈ updateJob jid f l := by
  unfold updateJob
  exact List.mem_map.mpr ⟨j, hl, by rw [if_neg hne]⟩

/-- C4: when the sorted ready queue's front is the server job under the
Deferrable policy and no aperiodic work is pending, the server job stays in
the ready queue with its budget untouched; the job at index 1 of the sorted
queue executes this tick (logging `Running`, and `Finish` at `t + 1` if it
completes), and when there is no second job the tick is spent idle. -/
theorem c4_deferrable_yield (cfg : SchedConfig) (s : SchedState) (t : Int)
    (srv : Job) (rest : List Job)
    (hpol : cfg.serverPolicy = "Deferrable")
    (hready : s.readyQueue = srv :: rest)
    (hsrv : srv.task.id = SERVER_TASK_ID)
    (hap : s.aperiodicQueue = [])
    (hids : ∀ j ∈ rest, j.jobId ≠ srv.jobId) :
    srv ∈ (executePhase cfg s t).readyQueue ∧
      (rest = [] →
        (executePhase cfg s t).readyQueue = [srv] ∧
        (executePhase cfg s t).history = s.history ++ [⟨t, -1, -1, "Idle"⟩]) ∧
      (∀ second srest, rest = second :: srest → second.remainingExecutionTime > 0 →
        (executePhase cfg s t).history =
          s.history ++ [⟨t, second.jobId, second.task.id, "Running"⟩] ++
            (if second.remainingExecutionTime - 1 ≤ 0 then
               [⟨t + 1, second.jobId, second.task.id, "Finish"⟩]
             else [])) := by
  have hnotp : cfg.serverPolicy ≠ "Poller" := by
    rw [hpol]
    decide
  have hstep :
      executePhase cfg s t =
        (match s.readyQueue with
         | _ :: second :: _ => normalExec s second t
         | _ => backgroundOrIdle s t) := by
    unfold executePhase
    rw [hready]
    dsimp only
    rw [if_pos ⟨hsrv, Or.inr hpol⟩, if_neg (by simp [hap]), if_neg hnotp]
  rw [hready] at hstep
  cases hrest : rest with
  | nil =>
    subst hrest
    rw [hstep]
    dsimp only
    refine ⟨?_, fun _ => ⟨?_, ?_⟩, fun second srest h => absurd h (by simp)⟩
    · rw [backgroundOrIdle_ready]
      simp [hready]
    · rw [backgroundOrIdle_ready, hready]
    · unfold backgroundOrIdle
      rw [hready]
  | cons second srest =>
    subst hrest
    rw [hstep]
    dsimp only
    have hsec : second.jobId ≠ srv.jobId := hids second (by simp)
    refine ⟨?_, fun h => absurd h (by simp), ?_⟩
    · unfold normalExec
      split_ifs with hrun
      · unfold executeJobStep
        dsimp only
        by_cases hfin : second.remainingExecutionTime - 1 ≤ 0
        · rw [if_pos hfin, hready]
          have hskip := eraseJob_cons_skip second.jobId srv (second :: srest)
            fun h => hsec h.symm
          simp [hskip]
        · rw [if_neg hfin, hready]
          dsimp only
          exact updateJob_mem_self (List.mem_cons_self _ _) (fun h => hsec h.symm) _
      · rw [backgroundOrIdle_ready]
        simp [hready]
    · intro second2 srest2 hEq hrun
      cases hEq
      simp only [normalExec, hrun, if_pos]
      unfold executeJobStep
      dsimp only
      split_ifs <;> simp

/-- C4 witness: the deferrable-yield theorem at a concrete state with the
server job in front and one user job behind it. -/
theorem c4_deferrable_yield_witness :
    mkJob 2 serverTaskDefinition 0 ∈
      (executePhase
        { periodicTasks := [T1c, serverTaskDefinition], aperiodicTasks := [],
          algo := .RM, serverPolicy := "Deferrable", hyperperiod := 10 }
        { readyQueue := [mkJob 2 serverTaskDefinition 0, jA],
          aperiodicQueue := [], history := [], jobCounter := 3,
          finishedJobs := [] } 0).readyQueue :=
  (c4_deferrable_yield
    { periodicTasks := [T1c, serverTaskDefinition], aperiodicTasks := [],
      algo := .RM, serverPolicy := "Deferrable", hyperperiod := 10 }
    { readyQueue := [mkJob 2 serverTaskDefinition 0, jA],
      aperiodicQueue := [], history := [], jobCounter := 3,
      finishedJobs := [] } 0
    (mkJob 2 serverTaskDefinition 0) [jA] rfl rfl (by decide) rfl
    (by decide)).1

end RTS

namespace RTS

/-- Helper: the cleanup phase does not touch the history. -/
theorem cleanupPhase_history (s : SchedState) (t : Int) :
    (cleanupPhase s t).history = s.history := rfl

/-- Helper: the periodic-arrival fold never logs events. -/
theorem periodicArrivalsPhase_history (t : Int) :
    ∀ (ts : List Task) (s : SchedState),
      (ts.foldl
        (fun st task =>
          if t ≥ task.releaseTime ∧ (t - task.releaseTime) % task.period = 0 then
            { st with
              readyQueue := st.readyQueue ++ [mkJob st.jobCounter task t]
              jobCounter := st.jobCounter + 1 }
          else st) s).history = s.history := by
  intro ts
  induction ts with
  | nil => intro s; rfl
  | cons a as ih =>
    intro s
    simp only [List.foldl_cons]
    split_ifs <;> exact ih _

/-- Helper: the aperiodic-arrival fold only logs `AperiodicArrival`. -/
theorem aperiodicArrivalsPhase_history (t : Int) :
    ∀ (ts : List Task) (s : SchedState),
      ∃ d,
        (ts.foldl
          (fun st task =>
            if t = task.releaseTime then
              { st with
                aperiodicQueue := st.aperiodicQueue ++ [mkJob st.jobCounter task t]
                history := st.history ++ [⟨t, st.jobCounter, task.id, "AperiodicArrival"⟩]
                jobCounter := st.jobCounter + 1 }
            else st) s).history = s.history ++ d ∧
        ∀ e ∈ d, e.type = "AperiodicArrival" := by
  intro ts
  induction ts with
  | nil => intro s; exact ⟨[], by simp, by simp⟩
  | cons a as ih =>
    intro s
    simp only [List.foldl_cons]
    split_ifs with hc
    · rcases ih ({ s with
        aperiodicQueue := s.aperiodicQueue ++ [mkJob s.jobCounter a t]
        history := s.history ++ [⟨t, s.jobCounter, a.id, "AperiodicArrival"⟩]
        jobCounter := s.jobCounter + 1 }) with ⟨d, hd, hts⟩
      refine ⟨⟨t, s.jobCounter, a.id, "AperiodicArrival"⟩ :: d, ?_, ?_⟩
      · rw [hd]
        simp
      · intro e he
        rcases List.mem_cons.mp he with h | h
        · rw [h]
        · exact hts e h
    · exact ih s

/-- Helper: background or idle execution appends one non-miss event. -/
theorem backgroundOrIdle_history (s : SchedState) (t : Int) :
    ∃ d, (backgroundOrIdle s t).history = s.history ++ d ∧
      ∀ e ∈ d, e.type ≠ "DEADLINE_MISS" := by
  unfold backgroundOrIdle
  split
  · rename_i aJob rest heq1 heq2
    dsimp only
    split_ifs
    · exact ⟨[⟨t, aJob.jobId, aJob.task.id, "BackgroundRun"⟩], rfl, by simp⟩
    · exact ⟨[⟨t, aJob.jobId, aJob.task.id, "BackgroundRun"⟩], rfl, by simp⟩
  · exact ⟨[⟨t, -1, -1, "Idle"⟩], rfl, by simp⟩

/-- Helper: a normal execution step appends only non-miss events. -/
theorem executeJobStep_history (s : SchedState) (j : Job) (t : Int) :
    ∃ d, (executeJobStep s j t).history = s.history ++ d ∧
      ∀ e ∈ d, e.type ≠ "DEADLINE_MISS" := by
  unfold executeJobStep
  dsimp only
  by_cases hfin : j.remainingExecutionTime - 1 ≤ 0
  · rw [if_pos hfin]
    exact ⟨[⟨t, j.jobId, j.task.id, "Running"⟩, ⟨t + 1, j.jobId, j.task.id, "Finish"⟩],
      by simp, by simp⟩
  · rw [if_neg hfin]
    exact ⟨[⟨t, j.jobId, j.task.id, "Running"⟩], rfl, by simp⟩

/-- Helper: the guarded normal-execution step appends only non-miss events. -/
theorem normalExec_history (s : SchedState) (j : Job) (t : Int) :
    ∃ d, (normalExec s j t).history = s.history ++ d ∧
      ∀ e ∈ d, e.type ≠ "DEADLINE_MISS" := by
  unfold normalExec
  split_ifs
  · exact executeJobStep_history s j t
  · exact backgroundOrIdle_history s t

/-- Helper: the polling server appends only non-miss events. -/
theorem pollingServerRun_history (srv : Job) (q : List Job)
    (h : List TimelineEvent) (t : Int) :
    ∃ d, (pollingServerRun srv q h t).history = h ++ d ∧
      ∀ e ∈ d, e.type ≠ "DEADLINE_MISS" := by
  unfold pollingServerRun
  rcases q with _ | ⟨a, rest⟩
  · exact ⟨[], by simp, by simp⟩
  · dsimp only
    split_ifs
    · exact ⟨[⟨t, a.jobId, a.task.id, "ServerExec"⟩,
        ⟨t + 1, a.jobId, a.task.id, "AperiodicFinish"⟩], by simp, by simp⟩
    · exact ⟨[⟨t, a.jobId, a.task.id, "ServerExec"⟩], rfl, by simp⟩

/-- Helper: the deferrable server appends only non-miss events. -/
theorem deferrableServerRun_history (srv : Job) (q : List Job)
    (h : List TimelineEvent) (t : Int) :
    ∃ d, (deferrableServerRun srv q h t).history = h ++ d ∧
      ∀ e ∈ d, e.type ≠ "DEADLINE_MISS" := by
  unfold deferrableServerRun
  rcases q with _ | ⟨a, rest⟩
  · exact ⟨[], by simp, by simp⟩
  · dsimp only
    split_ifs
    · exact ⟨[⟨t, a.jobId, a.task.id, "ServerExec(DS)"⟩,
        ⟨t + 1, a.jobId, a.task.id, "AperiodicFinish"⟩], by simp, by simp⟩
    · exact ⟨[⟨t, a.jobId, a.task.id, "ServerExec(DS)"⟩], rfl, by simp⟩

/-- Helper: the whole decision/execution phase appends only non-miss
events. -/
theorem executePhase_history (cfg : SchedConfig) (s : SchedState) (t : Int) :
    ∃ d, (executePhase cfg s t).history = s.history ++ d ∧
      ∀ e ∈ d, e.type ≠ "DEADLINE_MISS" := by
  unfold executePhase
  split
  · exact backgroundOrIdle_history s t
  · rename_i bestJob tail heq
    split_ifs with hsrv hwork hpol
    · exact pollingServerRun_history bestJob s.aperiodicQueue s.history t
    · exact deferrableServerRun_history bestJob s.aperiodicQueue s.history t
    · dsimp only
      rcases hq : eraseJob bestJob.jobId s.readyQueue with _ | ⟨next, rest2⟩ <;>
          dsimp only
      · exact backgroundOrIdle_history _ t
      · exact normalExec_history _ _ t
    · rcases hq : s.readyQueue with _ | ⟨j1, _ | ⟨second, rest2⟩⟩ <;>
          dsimp only
      · exact backgroundOrIdle_history _ t
      · exact backgroundOrIdle_history _ t
      · exact normalExec_history _ _ t
    · exact normalExec_history _ _ t

end RTS

namespace RTS

/-- Helper: a passing deadline check leaves the state alone and certifies
`t + 1 <= abs_deadline` for every non-server job in the ready queue. -/
theorem deadlineCheckPhase_ok {s : SchedState} {t : Int} {s1 : SchedState}
    (h : deadlineCheckPhase s t = .ok s1) :
    s1 = s ∧
      ∀ j ∈ s1.readyQueue, j.task.id ≠ SERVER_TASK_ID → t + 1 ≤ j.absoluteDeadline := by
  unfold deadlineCheckPhase at h
  cases hf : findMissJob s.readyQueue t with
  | some job =>
    rw [hf] at h
    exact absurd h (by simp)
  | none =>
    rw [hf] at h
    simp only [TickOutcome.ok.injEq] at h
    subst h
    refine ⟨rfl, fun j hj hns => ?_⟩
    have := List.find?_eq_none.mp hf j hj
    simp only [decide_eq_true_eq, not_and, not_lt] at this
    exact this hns

/-- Helper: a failing deadline check appends exactly one `DEADLINE_MISS`
event, at time `t + 1`, for a non-server job that violated its deadline. -/
theorem deadlineCheckPhase_aborted {s : SchedState} {t : Int} {s1 : SchedState}
    (h : deadlineCheckPhase s t = .aborted s1) :
    ∃ job ∈ s.readyQueue,
      job.task.id ≠ SERVER_TASK_ID ∧ t + 1 > job.absoluteDeadline ∧
      s1.history =
        s.history ++ [⟨t + 1, job.jobId, job.task.id, "DEADLINE_MISS"⟩] := by
  unfold deadlineCheckPhase at h
  cases hf : findMissJob s.readyQueue t with
  | some job =>
    rw [hf] at h
    simp only [TickOutcome.aborted.injEq] at h
    subst h
    have hmem : job ∈ s.readyQueue := List.mem_of_find?_eq_some hf
    have hpred := List.find?_some hf
    simp only [decide_eq_true_eq] at hpred
    exact ⟨job, hmem, hpred.1, hpred.2, rfl⟩
  | none =>
    rw [hf] at h
    exact absurd h (by simp)

/-- Helper: the history accumulated by a tick before the deadline check
extends the previous history with non-miss events only. -/
theorem tick_stage_history (cfg : SchedConfig) (s : SchedState) (t : Int) :
    ∃ d,
      (executePhase cfg
        { aperiodicArrivalsPhase cfg
            (periodicArrivalsPhase cfg (cleanupPhase s t) t) t with
          readyQueue :=
            pickNextJob cfg.algo
              (aperiodicArrivalsPhase cfg
                (periodicArrivalsPhase cfg (cleanupPhase s t) t) t).readyQueue t }
        t).history = s.history ++ d ∧
      ∀ e ∈ d, e.type ≠ "DEADLINE_MISS" := by
  rcases executePhase_history cfg
      { aperiodicArrivalsPhase cfg
          (periodicArrivalsPhase cfg (cleanupPhase s t) t) t with
        readyQueue :=
          pickNextJob cfg.algo
            (aperiodicArrivalsPhase cfg
              (periodicArrivalsPhase cfg (cleanupPhase s t) t) t).readyQueue t } t with
    ⟨d2, hd2, ht2⟩
  rcases aperiodicArrivalsPhase_history t cfg.aperiodicTasks
      (periodicArrivalsPhase cfg (cleanupPhase s t) t) with ⟨d1, hd1, ht1⟩
  refine ⟨d1 ++ d2, ?_, ?_⟩
  · rw [hd2]
    show (aperiodicArrivalsPhase cfg
        (periodicArrivalsPhase cfg (cleanupPhase s t) t) t).history ++ d2 = _
    unfold aperiodicArrivalsPhase
    rw [hd1]
    unfold periodicArrivalsPhase
    rw [periodicArrivalsPhase_history t cfg.periodicTasks (cleanupPhase s t)]
    rw [cleanupPhase_history]
    simp
  · intro e he
    rcases List.mem_append.mp he with h1 | h2
    · have := ht1 e h1
      rw [this]
      decide
    · exact ht2 e h2

/-- Helper: a tick that continues appends only non-miss events. -/
theorem tick_ok_history {cfg : SchedConfig} {s : SchedState} {t : Int}
    {s1 : SchedState} (h : tick cfg s t = .ok s1) :
    ∃ d, s1.history = s.history ++ d ∧ ∀ e ∈ d, e.type ≠ "DEADLINE_MISS" := by
  unfold tick at h
  rcases deadlineCheckPhase_ok h with ⟨hs1, _⟩
  rw [hs1]
  exact tick_stage_history cfg s t

/-- Helper: a tick that aborts appends only non-miss events followed by one
`DEADLINE_MISS` event carrying time `t + 1` and a non-server task id. -/
theorem tick_aborted_history {cfg : SchedConfig} {s : SchedState} {t : Int}
    {s1 : SchedState} (h : tick cfg s t = .aborted s1) :
    ∃ d e, s1.history = s.history ++ d ++ [e] ∧
      (∀ x ∈ d, x.type ≠ "DEADLINE_MISS") ∧
      e.type = "DEADLINE_MISS" ∧ e.time = t + 1 ∧ e.taskId ≠ SERVER_TASK_ID := by
  unfold tick at h
  rcases deadlineCheckPhase_aborted h with ⟨job, hmem, hns, hviol, hhist⟩
  rcases tick_stage_history cfg s t with ⟨d, hd, htd⟩
  exact ⟨d, ⟨t + 1, job.jobId, job.task.id, "DEADLINE_MISS"⟩,
    by rw [hhist, hd], htd, rfl, rfl, hns⟩

/-- Helper: the run loop either finishes with a miss-free history or stops
with the history ending in its only `DEADLINE_MISS` event. -/
theorem runLoop_miss_shape (cfg : SchedConfig) :
    ∀ (ts : List Int) (s : SchedState),
      (∀ e ∈ s.history, e.type ≠ "DEADLINE_MISS") →
      ((runLoop cfg s ts).missed = false ∧
          ∀ e ∈ (runLoop cfg s ts).finalState.history, e.type ≠ "DEADLINE_MISS") ∨
        ((runLoop cfg s ts).missed = true ∧
          ∃ pre e, (runLoop cfg s ts).finalState.history = pre ++ [e] ∧
            e.type = "DEADLINE_MISS" ∧ ∀ x ∈ pre, x.type ≠ "DEADLINE_MISS") := by
  intro ts
  induction ts with
  | nil =>
    intro s hs
    exact Or.inl ⟨rfl, hs⟩
  | cons t ts ih =>
    intro s hs
    unfold runLoop
    cases htick : tick cfg s t with
    | ok s1 =>
      rcases tick_ok_history htick with ⟨d, hd, htd⟩
      refine ih s1 ?_
      intro e he
      rw [hd] at he
      rcases List.mem_append.mp he with h1 | h2
      · exact hs e h1
      · exact htd e h2
    | aborted s1 =>
      rcases tick_aborted_history htick with ⟨d, e, hd, htd, het, _, _⟩
      refine Or.inr ⟨rfl, s.history ++ d, e, ?_, het, ?_⟩
      · rw [hd]
      · intro x hx
        rcases List.mem_append.mp hx with h1 | h2
        · exact hs x h1
        · exact htd x h2

/-- C2: the deadline-check step.  (i) After every continuing tick `t`, every
non-server job left in the ready queue satisfies `t + 1 <= abs_deadline`;
(ii) an aborting tick appends, after this tick's ordinary events, exactly
one `DEADLINE_MISS` event, at time `t + 1` and never for the server task
(id 999), as the final event, and no event follows it in the whole run;
(iii) over a run from the initial state, a miss event can only occur as the
last event of the history, the `missed` flag reflects its presence, and the
failure artifact `output_ABORTED.txt` is produced exactly on a miss. -/
theorem c2_deadline_check :
    (∀ (cfg : SchedConfig) (s : SchedState) (t : Int) (s1 : SchedState),
        tick cfg s t = .ok s1 →
        ∀ j ∈ s1.readyQueue, j.task.id ≠ SERVER_TASK_ID →
          t + 1 ≤ j.absoluteDeadline) ∧
      (∀ (cfg : SchedConfig) (s : SchedState) (t : Int) (s1 : SchedState),
        tick cfg s t = .aborted s1 →
        ∃ d e, s1.history = s.history ++ d ++ [e] ∧
          (∀ x ∈ d, x.type ≠ "DEADLINE_MISS") ∧
          e.type = "DEADLINE_MISS" ∧ e.time = t + 1 ∧ e.taskId ≠ SERVER_TASK_ID) ∧
      (∀ cfg : SchedConfig,
        ((runScheduler cfg).missed = false →
          ∀ e ∈ (runScheduler cfg).finalState.history, e.type ≠ "DEADLINE_MISS") ∧
        ((runScheduler cfg).missed = true →
          ∃ pre e, (runScheduler cfg).finalState.history = pre ++ [e] ∧
            e.type = "DEADLINE_MISS" ∧ ∀ x ∈ pre, x.type ≠ "DEADLINE_MISS") ∧
        (runScheduler cfg).artifacts =
          (if (runScheduler cfg).missed then ["output_ABORTED.txt"] else [])) := by
  refine ⟨?_, ?_, ?_⟩
  · intro cfg s t s1 h
    unfold tick at h
    rcases deadlineCheckPhase_ok h with ⟨hs1, hprop⟩
    intro j hj hns
    exact hprop j hj hns
  · intro cfg s t s1 h
    exact tick_aborted_history h
  · intro cfg
    have hshape := runLoop_miss_shape cfg (ticksOf cfg) initState
      (by intro e he; simp [initState] at he)
    refine ⟨?_, ?_, rfl⟩
    · intro hmiss e he
      rcases hshape with ⟨_, hclean⟩ | ⟨hm, _⟩
      · exact hclean e he
      · rw [show runScheduler cfg = runLoop cfg initState (ticksOf cfg) from rfl,
          hm] at hmiss
        exact absurd hmiss (by decide)
    · intro hmiss
      rcases hshape with ⟨hm, _⟩ | ⟨_, hshape2⟩
      · rw [show runScheduler cfg = runLoop cfg initState (ticksOf cfg) from rfl,
          hm] at hmiss
        exact absurd hmiss (by decide)
      · exact hshape2

/-- C2 witness: the deadline-check theorem applied to the concrete
infeasible run: the tick at `t = 3` of that run aborts, and the run's
history ends in its unique `DEADLINE_MISS` event. -/
theorem c2_deadline_check_witness :
    ∃ pre e,
      (runScheduler (mkScheduler [U1c, U2c] [] .RM "Background")).finalState.history =
          pre ++ [e] ∧
        e.type = "DEADLINE_MISS" ∧ ∀ x ∈ pre, x.type ≠ "DEADLINE_MISS" :=
  (c2_deadline_check.2.2 (mkScheduler [U1c, U2c] [] .RM "Background")).2.1 (by decide)

end RTS

namespace RTS

/-- Helper: the fuelled Euclid loop computes the mathematical gcd on
nonnegative inputs once the fuel exceeds `b.natAbs`. -/
theorem gcdLoop_eq_gcd :
    ∀ (fuel : Nat) (a b : Int), 0 ≤ a → 0 ≤ b → b.natAbs < fuel →
      gcdLoop fuel a b = ((Int.gcd a b : Nat) : Int) := by
  intro fuel
  induction fuel with
  | zero => intro a b _ _ hf; omega
  | succ fuel ih =>
    intro a b ha hb hf
    unfold gcdLoop
    by_cases hb0 : b = 0
    · subst hb0
      rw [if_pos rfl]
      have hg : Int.gcd a 0 = a.natAbs := by simp [Int.gcd]
      rw [hg, Int.natAbs_of_nonneg ha]
    · rw [if_neg hb0]
      have hbpos : 0 < b := by omega
      have hr0 : 0 ≤ a % b := Int.emod_nonneg a hb0
      have hrlt : a % b < b := Int.emod_lt_of_pos a hbpos
      have hfuel : (a % b).natAbs < fuel := by omega
      rw [ih b (a % b) hb hr0 hfuel]
      congr 1
      obtain ⟨m, rfl⟩ := Int.eq_ofNat_of_zero_le ha
      obtain ⟨n, rfl⟩ := Int.eq_ofNat_of_zero_le hb
      have : ((m : Int) % (n : Int)) = ((m % n : Nat) : Int) := by norm_cast
      rw [this, Int.gcd_natCast_natCast, Int.gcd_natCast_natCast]
      rw [Nat.gcd_comm n (m % n), ← Nat.gcd_rec n m, Nat.gcd_comm n m]

/-- Helper: `Scheduler::gcd` equals the mathematical gcd on nonnegative
inputs. -/
theorem gcdI_eq_gcd (a b : Int) (ha : 0 ≤ a) (hb : 0 ≤ b) :
    gcdI a b = ((Int.gcd a b : Nat) : Int) :=
  gcdLoop_eq_gcd (b.natAbs + 1) a b ha hb (by omega)

/-- Helper: the source's `h / gcd * p` step computes the LCM. -/
theorem div_gcd_mul_eq_lcm (m q : Nat) (hm : 0 < m) :
    ((m : Int) / ((Nat.gcd m q : Nat) : Int) * (q : Int)) = ((Nat.lcm m q : Nat) : Int) := by
  have hgpos : 0 < Nat.gcd m q := Nat.gcd_pos_of_pos_left q hm
  have hnat : m / Nat.gcd m q * q = Nat.lcm m q := by
    have hdvd : Nat.gcd m q ∣ m := Nat.gcd_dvd_left m q
    have hmul : Nat.gcd m q * (m / Nat.gcd m q * q) = Nat.gcd m q * Nat.lcm m q := by
      rw [← Nat.mul_assoc, Nat.mul_div_cancel' hdvd, Nat.gcd_mul_lcm]
    exact Nat.eq_of_mul_eq_mul_left hgpos hmul
  calc (m : Int) / ((Nat.gcd m q : Nat) : Int) * (q : Int)
      = ((m / Nat.gcd m q : Nat) : Int) * (q : Int) := by norm_cast
    _ = ((m / Nat.gcd m q * q : Nat) : Int) := by norm_cast
    _ = ((Nat.lcm m q : Nat) : Int) := by rw [hnat]

/-- Helper: the spec-side LCM fold is at least its seed and positive. -/
theorem specLcmFold_le (ts : List Task) :
    ∀ n : Nat, 0 < n → n ≤ specLcmFold ts n ∧ 0 < specLcmFold ts n := by
  induction ts with
  | nil => intro n hn; exact ⟨Nat.le_refl n, hn⟩
  | cons task rest ih =>
    intro n hn
    unfold specLcmFold
    simp only [List.foldl_cons]
    by_cases hp : 0 < task.period
    · rw [if_pos hp]
      have hq : 0 < task.period.toNat := by omega
      have hl : 0 < Nat.lcm n task.period.toNat := Nat.lcm_pos hn hq
      have hle : n ≤ Nat.lcm n task.period.toNat :=
        Nat.le_of_dvd hl (Nat.dvd_lcm_left n task.period.toNat)
      rcases ih (Nat.lcm n task.period.toNat) hl with ⟨h1, h2⟩
      exact ⟨Nat.le_trans hle h1, h2⟩
    · rw [if_neg hp]
      exact ih n hn

/-- Helper: the first phase of `calculateHyperperiod` computes the LCM of
the positive periods, capped at `SAFETY_LIMIT` (the early `break` does not
change the capped value, because the running LCM divides the full one). -/
theorem lcmStep_eq_min (ts : List Task) :
    ∀ h : Int, 1 ≤ h → h ≤ SAFETY_LIMIT →
      lcmStep ts h = min ((specLcmFold ts h.toNat : Nat) : Int) SAFETY_LIMIT := by
  induction ts with
  | nil =>
    intro h h1 h2
    unfold lcmStep specLcmFold
    simp only [List.foldl_nil]
    rw [Int.toNat_of_nonneg (by omega)]
    omega
  | cons task rest ih =>
    intro h h1 h2
    have hcons : specLcmFold (task :: rest) h.toNat =
        specLcmFold rest
          (if 0 < task.period then Nat.lcm h.toNat task.period.toNat else h.toNat) :=
      rfl
    rw [hcons]
    unfold lcmStep
    dsimp only
    by_cases hp : task.period > 0
    · have hp9 : 0 < task.period := hp
      rw [if_pos hp, if_pos hp9]
      have hgcd : gcdI h task.period = ((Int.gcd h task.period : Nat) : Int) :=
        gcdI_eq_gcd h task.period (by omega) (by omega)
      have hrepr : h = ((h.toNat : Nat) : Int) := (Int.toNat_of_nonneg (by omega)).symm
      have hqrepr : task.period = ((task.period.toNat : Nat) : Int) :=
        (Int.toNat_of_nonneg (by omega)).symm
      have hlcm : h / gcdI h task.period * task.period =
          ((Nat.lcm h.toNat task.period.toNat : Nat) : Int) := by
        rw [hgcd]
        conv_lhs => rw [hrepr, hqrepr]
        rw [Int.gcd_natCast_natCast]
        exact div_gcd_mul_eq_lcm h.toNat task.period.toNat (by omega)
      rw [hlcm]
      have hlcmpos : 0 < Nat.lcm h.toNat task.period.toNat :=
        Nat.lcm_pos (by omega) (by omega)
      by_cases hbig : ((Nat.lcm h.toNat task.period.toNat : Nat) : Int) > SAFETY_LIMIT
      · rw [if_pos hbig]
        rcases specLcmFold_le rest (Nat.lcm h.toNat task.period.toNat) hlcmpos with
          ⟨hle2, _⟩
        have hge : ((Nat.lcm h.toNat task.period.toNat : Nat) : Int) ≤
            ((specLcmFold rest (Nat.lcm h.toNat task.period.toNat) : Nat) : Int) := by
          exact_mod_cast hle2
        omega
      · rw [if_neg hbig]
        have hrec := ih ((Nat.lcm h.toNat task.period.toNat : Nat) : Int)
          (by exact_mod_cast hlcmpos) (by omega)
        rw [hrec, Int.toNat_natCast]
    · have hp9 : ¬0 < task.period := hp
      rw [if_neg hp, if_neg hp9]
      exact ih h h1 h2

/-- Helper: the extension loop only ever adds whole multiples of `base`. -/
theorem extendLoop_multiple (base maxArrival : Int) :
    ∀ (fuel : Nat) (acc : Int),
      ∃ k : Nat, extendLoop base maxArrival acc fuel = acc + (k : Int) * base := by
  intro fuel
  induction fuel with
  | zero => intro acc; exact ⟨0, by simp [extendLoop]⟩
  | succ fuel ih =>
    intro acc
    unfold extendLoop
    split_ifs with hc
    · rcases ih (acc + base) with ⟨k, hk⟩
      exact ⟨k + 1, by rw [hk]; push_cast; ring⟩
    · exact ⟨0, by simp⟩

/-- Helper: with positive base and enough fuel, the extension loop stops
only once it has reached the arrival target or the cap. -/
theorem extendLoop_reaches (base maxArrival : Int) (hbase : 1 ≤ base) :
    ∀ (fuel : Nat) (acc : Int), (SAFETY_LIMIT - acc).toNat < fuel →
      min maxArrival SAFETY_LIMIT ≤ extendLoop base maxArrival acc fuel := by
  intro fuel
  induction fuel with
  | zero => intro acc hf; omega
  | succ fuel ih =>
    intro acc hf
    unfold extendLoop
    split_ifs with hc
    · exact ih (acc + base) (by omega)
    · omega

/-- C6: `calculateHyperperiod` first computes the LCM of all positive
periods of the periodic set capped at `SAFETY_LIMIT = 10000`; `maxNeeded`
bounds every aperiodic task's `release + wcet + 200`; when the LCM phase
already covers that maximum the hyperperiod is exactly the capped LCM;
otherwise the pre-extension value is extended by whole multiples of itself
until it reaches the maximum or the cap, and the final result never exceeds
`SAFETY_LIMIT`. -/
theorem c6_hyperperiod (pTasks aTasks : List Task) :
    calculateHyperperiod pTasks aTasks ≤ SAFETY_LIMIT ∧
      lcmStep pTasks 1 = min ((specLcmFold pTasks 1 : Nat) : Int) SAFETY_LIMIT ∧
      (∀ task ∈ aTasks,
        task.releaseTime + task.computationTime + 200 ≤ maxNeeded aTasks) ∧
      (maxNeeded aTasks ≤ lcmStep pTasks 1 →
        calculateHyperperiod pTasks aTasks = lcmStep pTasks 1) ∧
      (lcmStep pTasks 1 < maxNeeded aTasks →
        (∃ k : Nat, 1 ≤ k ∧
          extendLoop (lcmStep pTasks 1) (maxNeeded aTasks) (lcmStep pTasks 1)
              (SAFETY_LIMIT.toNat + 1) = (k : Int) * lcmStep pTasks 1) ∧
        min (maxNeeded aTasks) SAFETY_LIMIT ≤
          extendLoop (lcmStep pTasks 1) (maxNeeded aTasks) (lcmStep pTasks 1)
            (SAFETY_LIMIT.toNat + 1) ∧
        calculateHyperperiod pTasks aTasks =
          min (extendLoop (lcmStep pTasks 1) (maxNeeded aTasks) (lcmStep pTasks 1)
            (SAFETY_LIMIT.toNat + 1)) SAFETY_LIMIT) := by
  have hmin : lcmStep pTasks 1 = min ((specLcmFold pTasks 1 : Nat) : Int) SAFETY_LIMIT := by
    have := lcmStep_eq_min pTasks 1 (by omega) (by unfold SAFETY_LIMIT; omega)
    simpa using this
  have hpos : 1 ≤ lcmStep pTasks 1 := by
    rcases specLcmFold_le pTasks 1 (by omega) with ⟨h1, h2⟩
    rw [hmin]
    have : (1 : Int) ≤ ((specLcmFold pTasks 1 : Nat) : Int) := by exact_mod_cast h2
    unfold SAFETY_LIMIT
    omega
  have hle : lcmStep pTasks 1 ≤ SAFETY_LIMIT := by
    rw [hmin]
    omega
  refine ⟨?_, hmin, ?_, ?_, ?_⟩
  · unfold calculateHyperperiod
    dsimp only
    split_ifs <;> omega
  · intro task htask
    unfold maxNeeded
    have haux : ∀ (ts : List Task) (m0 : Int),
        (∀ x ∈ ts, x.releaseTime + x.computationTime + 200 ≤
          ts.foldl (fun maxArrival x =>
            let neededTime := x.releaseTime + x.computationTime + 200
            if neededTime > maxArrival then neededTime else maxArrival) m0) ∧
        m0 ≤ ts.foldl (fun maxArrival x =>
            let neededTime := x.releaseTime + x.computationTime + 200
            if neededTime > maxArrival then neededTime else maxArrival) m0 := by
      intro ts
      induction ts with
      | nil => intro m0; exact ⟨by simp, by simp⟩
      | cons x xs ih =>
        intro m0
        simp only [List.foldl_cons]
        constructor
        · intro y hy
          rcases List.mem_cons.mp hy with h | h
          · subst h
            refine le_trans ?_ (ih _).2
            dsimp only
            split_ifs <;> omega
          · exact (ih _).1 y h
        · refine le_trans ?_ (ih _).2
          dsimp only
          split_ifs <;> omega
    exact (haux aTasks 0).1 task htask
  · intro hcov
    unfold calculateHyperperiod
    dsimp only
    rw [if_neg (by omega)]
    rw [if_neg (by omega)]
  · intro hneed
    refine ⟨?_, ?_, ?_⟩
    · rcases extendLoop_multiple (lcmStep pTasks 1) (maxNeeded aTasks)
        (SAFETY_LIMIT.toNat + 1) (lcmStep pTasks 1) with ⟨k, hk⟩
      refine ⟨k + 1, by omega, ?_⟩
      rw [hk]
      push_cast
      ring
    · exact extendLoop_reaches (lcmStep pTasks 1) (maxNeeded aTasks) hpos
        (SAFETY_LIMIT.toNat + 1) (lcmStep pTasks 1) (by unfold SAFETY_LIMIT; omega)
    · unfold calculateHyperperiod
      dsimp only
      rw [if_pos hneed]
      split_ifs <;> omega

/-- C6 witness: the hyperperiod theorem at the infeasible pair with no
aperiodic tasks (LCM 6, no extension). -/
theorem c6_hyperperiod_witness :
    calculateHyperperiod [U1c, U2c] [] = lcmStep [U1c, U2c] 1 :=
  (c6_hyperperiod [U1c, U2c] []).2.2.2.1 (by decide)

end RTS

namespace RTS

/-- Helper: server-job counts add over appends. -/
theorem countServer_append (a b : List Job) :
    countServer (a ++ b) = countServer a + countServer b := by
  unfold countServer
  rw [List.filter_append, List.length_append]

/-- Helper: server-job counts shrink along sublists. -/
theorem countServer_sublist {a b : List Job} (h : a.Sublist b) :
    countServer a ≤ countServer b := by
  unfold countServer
  exact (h.filter _).length_le

/-- Helper: a queue without server jobs counts zero. -/
theorem countServer_eq_zero {l : List Job}
    (h : ∀ j ∈ l, j.task.id ≠ SERVER_TASK_ID) : countServer l = 0 := by
  unfold countServer
  simp only [List.length_eq_zero]
  rw [List.filter_eq_nil_iff]
  intro j hj
  simpa using h j hj

/-- Helper: updating a job without changing its task id keeps the server
count. -/
theorem countServer_updateJob (jid : Int) (f : Job → Job) :
    ∀ l : List Job, (∀ j ∈ l, j.jobId = jid → (f j).task.id = j.task.id) →
      countServer (updateJob jid f l) = countServer l := by
  intro l
  induction l with
  | nil => intro _; rfl
  | cons a as ih =>
    intro hl
    have htail := ih fun j hj h2 => hl j (by simp [hj]) h2
    unfold updateJob at htail ⊢
    unfold countServer at htail ⊢
    simp only [List.map_cons]
    by_cases hid : a.jobId = jid
    · rw [if_pos hid]
      have hna : (f a).task.id = a.task.id := hl a (by simp) hid
      simp only [List.filter_cons, hna]
      split_ifs <;> simp [htail]
    · rw [if_neg hid]
      simp only [List.filter_cons]
      split_ifs <;> simp [htail]

/-- Helper: updating a job without changing its id keeps the id list. -/
theorem map_jobId_updateJob (jid : Int) (f : Job → Job) :
    ∀ l : List Job, (∀ j ∈ l, j.jobId = jid → (f j).jobId = j.jobId) →
      (updateJob jid f l).map Job.jobId = l.map Job.jobId := by
  intro l
  induction l with
  | nil => intro _; rfl
  | cons a as ih =>
    intro hl
    have htail := ih fun j hj h2 => hl j (by simp [hj]) h2
    unfold updateJob at htail ⊢
    simp only [List.map_cons]
    by_cases hid : a.jobId = jid
    · rw [if_pos hid, htail, hl a (by simp) hid]
    · rw [if_neg hid, htail]

/-- Helper: erasing an id yields a sublist. -/
theorem eraseJob_sublist (jid : Int) (l : List Job) :
    (eraseJob jid l).Sublist l :=
  List.eraseP_sublist l

/-- Helper: two jobs of a queue with distinct ids are equal when their ids
agree. -/
theorem eq_of_jobId_of_nodup {l : List Job} (hnd : (l.map Job.jobId).Nodup)
    {a b : Job} (ha : a ∈ l) (hb : b ∈ l) (hid : a.jobId = b.jobId) : a = b :=
  List.inj_on_of_nodup_map hnd ha hb hid

/-- Helper: background or idle execution keeps the job counter. -/
theorem backgroundOrIdle_jobCounter (s : SchedState) (t : Int) :
    (backgroundOrIdle s t).jobCounter = s.jobCounter := by
  unfold backgroundOrIdle
  split
  · dsimp only
    split_ifs <;> rfl
  · rfl

/-- Helper: a normal execution step keeps the job counter. -/
theorem executeJobStep_jobCounter (s : SchedState) (j : Job) (t : Int) :
    (executeJobStep s j t).jobCounter = s.jobCounter := by
  unfold executeJobStep
  dsimp only
  split_ifs <;> rfl

/-- Helper: the guarded execution step keeps the job counter. -/
theorem normalExec_jobCounter (s : SchedState) (j : Job) (t : Int) :
    (normalExec s j t).jobCounter = s.jobCounter := by
  unfold normalExec
  split_ifs
  · exact executeJobStep_jobCounter s j t
  · exact backgroundOrIdle_jobCounter s t

/-- Helper: the decision/execution phase keeps the job counter. -/
theorem executePhase_jobCounter (cfg : SchedConfig) (s : SchedState) (t : Int) :
    (executePhase cfg s t).jobCounter = s.jobCounter := by
  unfold executePhase
  split
  · exact backgroundOrIdle_jobCounter s t
  · rename_i bestJob tail heq
    by_cases hsrv : bestJob.task.id = SERVER_TASK_ID ∧ hasServer cfg.serverPolicy
    · rw [if_pos hsrv]
      by_cases hwork : s.aperiodicQueue ≠ []
      · rw [if_pos hwork]
      · rw [if_neg hwork]
        by_cases hpol : cfg.serverPolicy = "Poller"
        · rw [if_pos hpol]
          dsimp only
          rcases hq : eraseJob bestJob.jobId s.readyQueue with _ | ⟨next, rest2⟩ <;>
            dsimp only
          · exact backgroundOrIdle_jobCounter _ t
          · exact normalExec_jobCounter _ _ t
        · rw [if_neg hpol]
          rcases hq : s.readyQueue with _ | ⟨j1, _ | ⟨second, rest2⟩⟩ <;> dsimp only
          · exact backgroundOrIdle_jobCounter _ t
          · exact backgroundOrIdle_jobCounter _ t
          · exact normalExec_jobCounter _ _ t
    · rw [if_neg hsrv]
      exact normalExec_jobCounter _ _ t

end RTS

namespace RTS

/-- Helper: replacing the head by a job of the same task id keeps the
server count. -/
theorem countServer_cons_congr {x y : Job} (h : x.task.id = y.task.id)
    (l : List Job) : countServer (x :: l) = countServer (y :: l) := by
  unfold countServer
  simp only [List.filter_cons]
  rw [h]
  split_ifs <;> simp

/-- Helper: a normal execution step never increases the server count,
provided the executed job's id pins down its task id in the queue. -/
theorem executeJobStep_server_count (s : SchedState) (j : Job) (t : Int)
    (hyp : ∀ j2 ∈ s.readyQueue, j2.jobId = j.jobId → j2.task.id = j.task.id) :
    countServer (executeJobStep s j t).readyQueue ≤ countServer s.readyQueue := by
  unfold executeJobStep
  dsimp only
  by_cases hfin : j.remainingExecutionTime - 1 ≤ 0
  · rw [if_pos hfin]
    exact countServer_sublist (eraseJob_sublist _ _)
  · rw [if_neg hfin]
    have heq := countServer_updateJob j.jobId
      (fun _ =>
        { j with
          startTime := if j.startTime = -1 then t else j.startTime
          remainingExecutionTime := j.remainingExecutionTime - 1 })
      s.readyQueue
      (fun j2 hj2 hid => by
        dsimp only
        exact (hyp j2 hj2 hid).symm)
    exact le_of_eq heq

/-- Helper: a normal execution step keeps the job-id list within the
original one. -/
theorem executeJobStep_ready_nodup (s : SchedState) (j : Job) (t : Int)
    (hnd : (s.readyQueue.map Job.jobId).Nodup) :
    ((executeJobStep s j t).readyQueue.map Job.jobId).Nodup := by
  unfold executeJobStep
  dsimp only
  by_cases hfin : j.remainingExecutionTime - 1 ≤ 0
  · rw [if_pos hfin]
    exact hnd.sublist ((eraseJob_sublist _ _).map _)
  · rw [if_neg hfin]
    have heq := map_jobId_updateJob j.jobId
      (fun _ =>
        { j with
          startTime := if j.startTime = -1 then t else j.startTime
          remainingExecutionTime := j.remainingExecutionTime - 1 })
      s.readyQueue
      (fun j2 _ hid => by
        dsimp only
        exact hid.symm)
    rw [heq]
    exact hnd

/-- Helper: the guarded execution step never increases the server count. -/
theorem normalExec_server_count (s : SchedState) (j : Job) (t : Int)
    (hyp : ∀ j2 ∈ s.readyQueue, j2.jobId = j.jobId → j2.task.id = j.task.id) :
    countServer (normalExec s j t).readyQueue ≤ countServer s.readyQueue := by
  unfold normalExec
  split_ifs
  · exact executeJobStep_server_count s j t hyp
  · rw [backgroundOrIdle_ready]

/-- Helper: the guarded execution step preserves distinct job ids. -/
theorem normalExec_ready_nodup (s : SchedState) (j : Job) (t : Int)
    (hnd : (s.readyQueue.map Job.jobId).Nodup) :
    ((normalExec s j t).readyQueue.map Job.jobId).Nodup := by
  unfold normalExec
  split_ifs
  · exact executeJobStep_ready_nodup s j t hnd
  · rw [backgroundOrIdle_ready]
    exact hnd

end RTS

namespace RTS

/-- Helper: the decision/execution phase never increases the server-job
count when job ids are distinct. -/
theorem executePhase_server_count (cfg : SchedConfig) (s : SchedState) (t : Int)
    (hnd : (s.readyQueue.map Job.jobId).Nodup) :
    countServer (executePhase cfg s t).readyQueue ≤ countServer s.readyQueue := by
  unfold executePhase
  split
  · rw [backgroundOrIdle_ready]
  · rename_i bestJob tail heq
    have hbmem : bestJob ∈ s.readyQueue := by rw [heq]; simp
    have htail : ∀ j2 ∈ tail, j2.jobId ≠ bestJob.jobId := by
      intro j2 hj2 hid
      rw [heq] at hnd
      have hnd1 : (∀ x ∈ tail, ¬x.jobId = bestJob.jobId) ∧
          (tail.map Job.jobId).Nodup := by simpa using hnd
      exact hnd1.1 j2 hj2 hid
    by_cases hsrv : bestJob.task.id = SERVER_TASK_ID ∧ hasServer cfg.serverPolicy
    · rw [if_pos hsrv]
      by_cases hwork : s.aperiodicQueue ≠ []
      · rw [if_pos hwork]
        dsimp only
        have hcore :
            (if cfg.serverPolicy = "Poller" then
                pollingServerRun bestJob s.aperiodicQueue s.history t
              else
                deferrableServerRun bestJob s.aperiodicQueue s.history t).serverJob.task
              = bestJob.task := by
          split_ifs
          · exact (pollingServerRun_serverJob_core _ _ _ _).2.1
          · exact (deferrableServerRun_serverJob_core _ _ _ _).2.1
        have hup : updateJob bestJob.jobId
            (fun _ =>
              (if cfg.serverPolicy = "Poller" then
                  pollingServerRun bestJob s.aperiodicQueue s.history t
                else
                  deferrableServerRun bestJob s.aperiodicQueue s.history t).serverJob)
            s.readyQueue =
            (if cfg.serverPolicy = "Poller" then
                pollingServerRun bestJob s.aperiodicQueue s.history t
              else
                deferrableServerRun bestJob s.aperiodicQueue s.history t).serverJob ::
              tail := by
          rw [heq]
          exact updateJob_cons_head _ _ _ htail
        have hcnt : countServer
            ((if cfg.serverPolicy = "Poller" then
                pollingServerRun bestJob s.aperiodicQueue s.history t
              else
                deferrableServerRun bestJob s.aperiodicQueue s.history t).serverJob ::
              tail) = countServer s.readyQueue := by
          rw [heq]
          exact countServer_cons_congr (by rw [hcore]) tail
        by_cases hb : ((if cfg.serverPolicy = "Poller" then
                pollingServerRun bestJob s.aperiodicQueue s.history t
              else
                deferrableServerRun bestJob s.aperiodicQueue s.history t)).serverJob.remainingExecutionTime ≤ 0
        · rw [if_pos hb]
          calc countServer (eraseJob bestJob.jobId (updateJob bestJob.jobId _ s.readyQueue))
              ≤ countServer (updateJob bestJob.jobId _ s.readyQueue) :=
                countServer_sublist (eraseJob_sublist _ _)
            _ = countServer s.readyQueue := by rw [hup, hcnt]
        · rw [if_neg hb, hup, hcnt]
      · rw [if_neg hwork]
        by_cases hpol : cfg.serverPolicy = "Poller"
        · rw [if_pos hpol]
          dsimp only
          have hsub0 : (eraseJob bestJob.jobId s.readyQueue).Sublist s.readyQueue :=
            eraseJob_sublist _ _
          rcases hq : eraseJob bestJob.jobId s.readyQueue with _ | ⟨next, rest2⟩ <;>
            dsimp only
          · rw [backgroundOrIdle_ready]
            dsimp only
            exact Nat.zero_le _
          · rw [hq] at hsub0
            have hnd2 : ((next :: rest2).map Job.jobId).Nodup :=
              hnd.sublist (hsub0.map _)
            have hyp2 : ∀ j2 ∈ (next :: rest2), j2.jobId = next.jobId →
                j2.task.id = next.task.id := by
              intro j2 hj2 hid
              rw [eq_of_jobId_of_nodup hnd2 hj2 (by simp) hid]
            calc countServer (normalExec
                  { s with readyQueue := next :: rest2 } next t).readyQueue
                ≤ countServer (next :: rest2) :=
                  normalExec_server_count _ next t hyp2
              _ ≤ countServer s.readyQueue := countServer_sublist hsub0
        · rw [if_neg hpol]
          rcases hq : s.readyQueue with _ | ⟨j1, _ | ⟨second, rest2⟩⟩ <;> dsimp only
          · rw [backgroundOrIdle_ready, hq]
          · rw [backgroundOrIdle_ready, hq]
          · have hyp2 : ∀ j2 ∈ s.readyQueue, j2.jobId = second.jobId →
                j2.task.id = second.task.id := by
              intro j2 hj2 hid
              rw [eq_of_jobId_of_nodup hnd hj2 (by rw [hq]; simp) hid]
            have := normalExec_server_count s second t hyp2
            rw [hq] at this
            exact this
    · rw [if_neg hsrv]
      have hyp2 : ∀ j2 ∈ s.readyQueue, j2.jobId = bestJob.jobId →
          j2.task.id = bestJob.task.id := by
        intro j2 hj2 hid
        rw [eq_of_jobId_of_nodup hnd hj2 hbmem hid]
      exact normalExec_server_count s bestJob t hyp2

/-- Helper: the decision/execution phase preserves distinct job ids. -/
theorem executePhase_ready_nodup (cfg : SchedConfig) (s : SchedState) (t : Int)
    (hnd : (s.readyQueue.map Job.jobId).Nodup) :
    ((executePhase cfg s t).readyQueue.map Job.jobId).Nodup := by
  unfold executePhase
  split
  · rw [backgroundOrIdle_ready]
    exact hnd
  · rename_i bestJob tail heq
    by_cases hsrv : bestJob.task.id = SERVER_TASK_ID ∧ hasServer cfg.serverPolicy
    · rw [if_pos hsrv]
      by_cases hwork : s.aperiodicQueue ≠ []
      · rw [if_pos hwork]
        dsimp only
        have hcore :
            (if cfg.serverPolicy = "Poller" then
                pollingServerRun bestJob s.aperiodicQueue s.history t
              else
                deferrableServerRun bestJob s.aperiodicQueue s.history t).serverJob.jobId
              = bestJob.jobId := by
          split_ifs
          · exact (pollingServerRun_serverJob_core _ _ _ _).1
          · exact (deferrableServerRun_serverJob_core _ _ _ _).1
        have hmap := map_jobId_updateJob bestJob.jobId
          (fun _ =>
            (if cfg.serverPolicy = "Poller" then
                pollingServerRun bestJob s.aperiodicQueue s.history t
              else
                deferrableServerRun bestJob s.aperiodicQueue s.history t).serverJob)
          s.readyQueue
          (fun j2 _ hid => by rw [hcore, hid])
        by_cases hb : ((if cfg.serverPolicy = "Poller" then
                pollingServerRun bestJob s.aperiodicQueue s.history t
              else
                deferrableServerRun bestJob s.aperiodicQueue s.history t)).serverJob.remainingExecutionTime ≤ 0
        · rw [if_pos hb]
          have hnm : ((updateJob bestJob.jobId
              (fun _ => ((if cfg.serverPolicy = "Poller" then
                pollingServerRun bestJob s.aperiodicQueue s.history t
              else
                deferrableServerRun bestJob s.aperiodicQueue s.history t)).serverJob) s.readyQueue).map Job.jobId).Nodup := by
            rw [hmap]
            exact hnd
          exact hnm.sublist ((eraseJob_sublist _ _).map _)
        · rw [if_neg hb, hmap]
          exact hnd
      · rw [if_neg hwork]
        by_cases hpol : cfg.serverPolicy = "Poller"
        · rw [if_pos hpol]
          dsimp only
          have hsub0 : (eraseJob bestJob.jobId s.readyQueue).Sublist s.readyQueue :=
            eraseJob_sublist _ _
          rcases hq : eraseJob bestJob.jobId s.readyQueue with _ | ⟨next, rest2⟩ <;>
            dsimp only
          · rw [backgroundOrIdle_ready]
            simp
          · rw [hq] at hsub0
            exact normalExec_ready_nodup _ next t (hnd.sublist (hsub0.map _))
        · rw [if_neg hpol]
          rcases hq : s.readyQueue with _ | ⟨j1, _ | ⟨second, rest2⟩⟩ <;> dsimp only
          · rw [backgroundOrIdle_ready, hq]
            simp
          · rw [backgroundOrIdle_ready, hq]
            rw [hq] at hnd
            exact hnd
          · have := normalExec_ready_nodup s second t hnd
            exact this
    · rw [if_neg hsrv]
      exact normalExec_ready_nodup s bestJob t hnd

end RTS

namespace RTS

/-- Helper: the aperiodic-arrival fold never touches the ready queue and
never decreases the job counter. -/
theorem aperiodicArrivals_go_ready (t : Int) :
    ∀ (ts : List Task) (s : SchedState),
      (ts.foldl
        (fun st task =>
          if t = task.releaseTime then
            { st with
              aperiodicQueue := st.aperiodicQueue ++ [mkJob st.jobCounter task t]
              history := st.history ++ [⟨t, st.jobCounter, task.id, "AperiodicArrival"⟩]
              jobCounter := st.jobCounter + 1 }
          else st) s).readyQueue = s.readyQueue ∧
      s.jobCounter ≤
        (ts.foldl
          (fun st task =>
            if t = task.releaseTime then
              { st with
                aperiodicQueue := st.aperiodicQueue ++ [mkJob st.jobCounter task t]
                history := st.history ++ [⟨t, st.jobCounter, task.id, "AperiodicArrival"⟩]
                jobCounter := st.jobCounter + 1 }
            else st) s).jobCounter := by
  intro ts
  induction ts with
  | nil => intro s; exact ⟨rfl, le_refl _⟩
  | cons a as ih =>
    intro s
    simp only [List.foldl_cons]
    split_ifs with hc
    · rcases ih ({ s with
        aperiodicQueue := s.aperiodicQueue ++ [mkJob s.jobCounter a t]
        history := s.history ++ [⟨t, s.jobCounter, a.id, "AperiodicArrival"⟩]
        jobCounter := s.jobCounter + 1 }) with ⟨h1, h2⟩
      have hcc : ({ s with
          aperiodicQueue := s.aperiodicQueue ++ [mkJob s.jobCounter a t]
          history := s.history ++ [⟨t, s.jobCounter, a.id, "AperiodicArrival"⟩]
          jobCounter := s.jobCounter + 1 } : SchedState).jobCounter =
          s.jobCounter + 1 := rfl
      rw [hcc] at h2
      exact ⟨h1, by omega⟩
    · exact ih s

/-- Helper: the periodic-arrival fold appends, after the existing queue,
fresh jobs with increasing ids, one per matching task, and adds at most as
many server jobs as there are server tasks in the scanned list. -/
theorem periodicArrivals_go_spec (t : Int) :
    ∀ (ts : List Task) (s : SchedState),
      ∃ added : List Job,
        (ts.foldl
          (fun st task =>
            if t ≥ task.releaseTime ∧ (t - task.releaseTime) % task.period = 0 then
              { st with
                readyQueue := st.readyQueue ++ [mkJob st.jobCounter task t]
                jobCounter := st.jobCounter + 1 }
            else st) s).readyQueue = s.readyQueue ++ added ∧
        s.jobCounter ≤
          (ts.foldl
            (fun st task =>
              if t ≥ task.releaseTime ∧ (t - task.releaseTime) % task.period = 0 then
                { st with
                  readyQueue := st.readyQueue ++ [mkJob st.jobCounter task t]
                  jobCounter := st.jobCounter + 1 }
              else st) s).jobCounter ∧
        (∀ j ∈ added,
          s.jobCounter ≤ j.jobId ∧
          j.jobId <
            (ts.foldl
              (fun st task =>
                if t ≥ task.releaseTime ∧ (t - task.releaseTime) % task.period = 0 then
                  { st with
                    readyQueue := st.readyQueue ++ [mkJob st.jobCounter task t]
                    jobCounter := st.jobCounter + 1 }
                else st) s).jobCounter ∧
          ∃ tk ∈ ts, j = mkJob j.jobId tk t ∧ t ≥ tk.releaseTime ∧
            (t - tk.releaseTime) % tk.period = 0) ∧
        (added.map Job.jobId).Nodup ∧
        countServer added ≤ countServerTasks ts := by
  intro ts
  induction ts with
  | nil =>
    intro s
    exact ⟨[], by simp, le_refl _, by simp, by simp, by simp [countServer, countServerTasks]⟩
  | cons tk ts ih =>
    intro s
    simp only [List.foldl_cons]
    by_cases hc : t ≥ tk.releaseTime ∧ (t - tk.releaseTime) % tk.period = 0
    · rw [if_pos hc]
      rcases ih ({ s with
          readyQueue := s.readyQueue ++ [mkJob s.jobCounter tk t]
          jobCounter := s.jobCounter + 1 }) with
        ⟨added2, hready, hcounter, hprops, hnodup, hcount⟩
      have hcc : ({ s with
          readyQueue := s.readyQueue ++ [mkJob s.jobCounter tk t]
          jobCounter := s.jobCounter + 1 } : SchedState).jobCounter =
          s.jobCounter + 1 := rfl
      rw [hcc] at hcounter
      refine ⟨mkJob s.jobCounter tk t :: added2, ?_, by omega, ?_, ?_, ?_⟩
      · rw [hready]
        simp
      · intro j hj
        rcases List.mem_cons.mp hj with h | h
        · subst h
          refine ⟨le_refl _, ?_, tk, by simp, rfl, hc.1, hc.2⟩
          have hjid : (mkJob s.jobCounter tk t).jobId = s.jobCounter := rfl
          rw [hjid]
          omega
        · rcases hprops j h with ⟨h1, h2, tk2, htk2, h3⟩
          rw [hcc] at h1
          exact ⟨by omega, h2, tk2, by simp [htk2], h3⟩
      · simp only [List.map_cons, List.nodup_cons]
        refine ⟨?_, hnodup⟩
        intro hmem
        rcases List.mem_map.mp hmem with ⟨j, hj, hid⟩
        have h1 := (hprops j hj).1
        rw [hcc] at h1
        have hjid : (mkJob s.jobCounter tk t).jobId = s.jobCounter := rfl
        rw [hjid] at hmem
        rw [hjid] at hid
        omega
      · have hstep : countServer (mkJob s.jobCounter tk t :: added2) =
            (if tk.id = SERVER_TASK_ID then 1 else 0) + countServer added2 := by
          unfold countServer
          simp only [List.filter_cons, decide_eq_true_eq]
          have : (mkJob s.jobCounter tk t).task.id = tk.id := rfl
          rw [this]
          split_ifs <;> simp [Nat.add_comm]
        have hstep2 : countServerTasks (tk :: ts) =
            (if tk.id = SERVER_TASK_ID then 1 else 0) + countServerTasks ts := by
          unfold countServerTasks
          simp only [List.filter_cons, decide_eq_true_eq]
          split_ifs <;> simp [Nat.add_comm]
        rw [hstep, hstep2]
        omega
    · rw [if_neg hc]
      rcases ih s with ⟨added2, hready, hcounter, hprops, hnodup, hcount⟩
      refine ⟨added2, hready, hcounter, ?_, hnodup, ?_⟩
      · intro j hj
        rcases hprops j hj with ⟨h1, h2, tk2, htk2, h3⟩
        exact ⟨h1, h2, tk2, by simp [htk2], h3⟩
      · have hstep2 : countServerTasks ts ≤ countServerTasks (tk :: ts) := by
          unfold countServerTasks
          simp only [List.filter_cons]
          split_ifs <;> simp
        omega

/-- Helper: cleanup keeps a sublist of the ready queue, keeps the counter,
and leaves no expired server job behind. -/
theorem cleanupPhase_spec (s : SchedState) (t : Int) :
    (cleanupPhase s t).readyQueue.Sublist s.readyQueue ∧
      (∀ j ∈ (cleanupPhase s t).readyQueue,
        j.task.id = SERVER_TASK_ID → t < j.absoluteDeadline) ∧
      (cleanupPhase s t).jobCounter = s.jobCounter := by
  refine ⟨List.filter_sublist _, ?_, rfl⟩
  intro j hj hid
  have := List.of_mem_filter hj
  simp only [decide_eq_true_eq] at this
  omega

end RTS

namespace RTS

/-- Helper: a queue with a zero server count holds no server job. -/
theorem not_server_of_countServer_zero {l : List Job} (h : countServer l = 0) :
    ∀ j ∈ l, j.task.id ≠ SERVER_TASK_ID := by
  intro j hj hid
  unfold countServer at h
  rw [List.length_eq_zero] at h
  have hmem : j ∈ l.filter (fun j => decide (j.task.id = SERVER_TASK_ID)) :=
    List.mem_filter.mpr ⟨hj, by simp [hid]⟩
  rw [h] at hmem
  simp at hmem

/-- Helper: a server head contributes one to the count. -/
theorem countServer_cons_server {srv : Job} (h : srv.task.id = SERVER_TASK_ID)
    (l : List Job) : countServer (srv :: l) = 1 + countServer l := by
  unfold countServer
  simp only [List.filter_cons, decide_eq_true_eq]
  rw [if_pos h]
  simp [Nat.add_comm]

/-- Helper: after cleanup and arrivals at tick `t ≥ 0`, the ready queue
holds at most one server job, job ids stay distinct and below the counter,
and every server job sits in its current release window. -/
theorem serverInv_mid (cfg : SchedConfig)
    (hcfg : ∀ tk ∈ cfg.periodicTasks, tk.id = SERVER_TASK_ID →
      tk = serverTaskDefinition)
    (hcnt : countServerTasks cfg.periodicTasks ≤ 1)
    (s : SchedState) (t : Int) (ht : 0 ≤ t) (hinv : ServerInv s t) :
    countServer (arrivalsState cfg s t).readyQueue ≤ 1 ∧
      ((arrivalsState cfg s t).readyQueue.map Job.jobId).Nodup ∧
      (∀ j ∈ (arrivalsState cfg s t).readyQueue,
        j.jobId < (arrivalsState cfg s t).jobCounter) ∧
      (∀ j ∈ (arrivalsState cfg s t).readyQueue, j.task.id = SERVER_TASK_ID →
        j.task = serverTaskDefinition ∧
        j.absoluteDeadline = j.arrivalTime + SERVER_PERIOD ∧
        0 ≤ j.arrivalTime ∧ j.arrivalTime % SERVER_PERIOD = 0 ∧
        j.arrivalTime ≤ t ∧ t < j.arrivalTime + SERVER_PERIOD) := by
  rcases hinv with ⟨hcount, hnodup, hbound, hwin⟩
  rcases cleanupPhase_spec s t with ⟨hsub, hclean, hcc⟩
  rcases periodicArrivals_go_spec t cfg.periodicTasks (cleanupPhase s t) with
    ⟨added, hready2, hcounter2, hprops2, hnodup2, hcountadd⟩
  have hap := aperiodicArrivals_go_ready t cfg.aperiodicTasks
    (periodicArrivalsPhase cfg (cleanupPhase s t) t)
  have hmidready : (arrivalsState cfg s t).readyQueue =
      (cleanupPhase s t).readyQueue ++ added := by
    show (aperiodicArrivalsPhase cfg
        (periodicArrivalsPhase cfg (cleanupPhase s t) t) t).readyQueue = _
    rw [show (aperiodicArrivalsPhase cfg
        (periodicArrivalsPhase cfg (cleanupPhase s t) t) t).readyQueue =
        (periodicArrivalsPhase cfg (cleanupPhase s t) t).readyQueue from hap.1]
    exact hready2
  have hmidcounter : (periodicArrivalsPhase cfg (cleanupPhase s t) t).jobCounter ≤
      (arrivalsState cfg s t).jobCounter := hap.2
  have hcleannodup : ((cleanupPhase s t).readyQueue.map Job.jobId).Nodup :=
    hnodup.sublist (hsub.map _)
  have hcleanmem : ∀ j ∈ (cleanupPhase s t).readyQueue, j ∈ s.readyQueue :=
    fun j hj => hsub.mem hj
  refine ⟨?_, ?_, ?_, ?_⟩
  · rw [hmidready, countServer_append]
    by_cases hmod : t % SERVER_PERIOD = 0
    · have hz : countServer (cleanupPhase s t).readyQueue = 0 := by
        apply countServer_eq_zero
        intro j hj hid
        rcases hwin j (hcleanmem j hj) hid with ⟨_, hdl, _, hm50, hlt, _⟩
        have hexp := hclean j hj hid
        rw [hdl] at hexp
        unfold SERVER_PERIOD at hm50 hexp hmod
        omega
      rw [hz]
      omega
    · have hz : countServer added = 0 := by
        apply countServer_eq_zero
        intro j hj hid
        rcases hprops2 j hj with ⟨_, _, tk, htk, hjeq, hrel, hper⟩
        have htid : tk.id = SERVER_TASK_ID := by
          have : j.task = tk := by rw [hjeq]; rfl
          rw [this] at hid
          exact hid
        have hser := hcfg tk htk htid
        rw [hser] at hper
        have : (t - serverTaskDefinition.releaseTime) % serverTaskDefinition.period
            = t % SERVER_PERIOD := by
          unfold serverTaskDefinition
          simp
        rw [this] at hper
        exact hmod hper
      rw [hz]
      have hle2 : countServer (cleanupPhase s t).readyQueue ≤
          countServer s.readyQueue := countServer_sublist hsub
      omega
  · rw [hmidready, List.map_append]
    rw [List.nodup_append]
    refine ⟨hcleannodup, hnodup2, ?_⟩
    intro x hx hy
    rcases List.mem_map.mp hx with ⟨jx, hjx, hidx⟩
    rcases List.mem_map.mp hy with ⟨jy, hjy, hidy⟩
    have h1 : jx.jobId < s.jobCounter := hbound jx (hcleanmem jx hjx)
    have h2 : (cleanupPhase s t).jobCounter ≤ jy.jobId := (hprops2 jy hjy).1
    rw [hcc] at h2
    omega
  · intro j hj
    rw [hmidready] at hj
    rcases List.mem_append.mp hj with h | h
    · have h1 : j.jobId < s.jobCounter := hbound j (hcleanmem j h)
      have h2 : (cleanupPhase s t).jobCounter ≤
          (periodicArrivalsPhase cfg (cleanupPhase s t) t).jobCounter := hcounter2
      rw [hcc] at h2
      omega
    · have h1 : j.jobId <
          (periodicArrivalsPhase cfg (cleanupPhase s t) t).jobCounter :=
        (hprops2 j h).2.1
      omega
  · intro j hj hid
    rw [hmidready] at hj
    rcases List.mem_append.mp hj with h | h
    · rcases hwin j (hcleanmem j h) hid with ⟨ht1, ht2, ht3, ht4, ht5, _⟩
      have hexp := hclean j h hid
      rw [ht2] at hexp
      exact ⟨ht1, ht2, ht3, ht4, by omega, by omega⟩
    · rcases hprops2 j h with ⟨_, _, tk, htk, hjeq, hrel, hper⟩
      have htask : j.task = tk := by rw [hjeq]; rfl
      have htid : tk.id = SERVER_TASK_ID := by rw [htask] at hid; exact hid
      have hser := hcfg tk htk htid
      rw [hser] at htask hper hrel
      have harr : j.arrivalTime = t := by rw [hjeq]; rfl
      have hdl : j.absoluteDeadline = j.arrivalTime + SERVER_PERIOD := by
        rw [hjeq, hser]
        rfl
      have hm : (t - serverTaskDefinition.releaseTime) % serverTaskDefinition.period
          = t % SERVER_PERIOD := by
        unfold serverTaskDefinition
        simp
      rw [hm] at hper
      refine ⟨htask, hdl, by omega, by rw [harr]; exact hper, by omega, ?_⟩
      rw [harr]
      unfold SERVER_PERIOD
      omega

end RTS

namespace RTS

/-- Helper: permutations preserve the server count. -/
theorem countServer_perm {l1 l2 : List Job} (h : l1.Perm l2) :
    countServer l1 = countServer l2 :=
  (h.filter _).length_eq

/-- Helper: every job in the ready queue after the decision/execution phase
has the core fields of a job already present before it. -/
theorem executePhase_ready_core (cfg : SchedConfig) (s : SchedState) (t : Int) :
    ∀ j2 ∈ (executePhase cfg s t).readyQueue,
      ∃ j0 ∈ s.readyQueue, j2.sameCore j0 := by
  intro j2 hj2
  unfold executePhase at hj2
  revert hj2
  split
  · intro hj2
    rw [backgroundOrIdle_ready] at hj2
    exact ⟨j2, hj2, Job.sameCore_refl j2⟩
  · rename_i bestJob tail heq
    have hbmem : bestJob ∈ s.readyQueue := by rw [heq]; simp
    by_cases hsrv : bestJob.task.id = SERVER_TASK_ID ∧ hasServer cfg.serverPolicy
    · rw [if_pos hsrv]
      by_cases hwork : s.aperiodicQueue ≠ []
      · rw [if_pos hwork]
        dsimp only
        intro hj2
        have hcore :
            (if cfg.serverPolicy = "Poller" then
                pollingServerRun bestJob s.aperiodicQueue s.history t
              else
                deferrableServerRun bestJob s.aperiodicQueue s.history t).serverJob.sameCore
              bestJob := by
          split_ifs
          · exact pollingServerRun_serverJob_core _ _ _ _
          · exact deferrableServerRun_serverJob_core _ _ _ _
        have hj2' : j2 ∈ updateJob bestJob.jobId
            (fun _ =>
              (if cfg.serverPolicy = "Poller" then
                  pollingServerRun bestJob s.aperiodicQueue s.history t
                else
                  deferrableServerRun bestJob s.aperiodicQueue s.history t).serverJob)
            s.readyQueue := by
          by_cases hb : ((if cfg.serverPolicy = "Poller" then
                pollingServerRun bestJob s.aperiodicQueue s.history t
              else
                deferrableServerRun bestJob s.aperiodicQueue s.history t)).serverJob.remainingExecutionTime ≤ 0
          · rw [if_pos hb] at hj2
            exact mem_eraseJob hj2
          · rw [if_neg hb] at hj2
            exact hj2
        rcases mem_updateJob hj2' with ⟨j0, hj0, hEq⟩
        by_cases hid : j0.jobId = bestJob.jobId
        · rw [hEq, if_pos hid]
          exact ⟨bestJob, hbmem, hcore⟩
        · rw [hEq, if_neg hid]
          exact ⟨j0, hj0, Job.sameCore_refl j0⟩
      · rw [if_neg hwork]
        by_cases hpol : cfg.serverPolicy = "Poller"
        · rw [if_pos hpol]
          dsimp only
          have hsub0 : (eraseJob bestJob.jobId s.readyQueue).Sublist s.readyQueue :=
            eraseJob_sublist _ _
          rcases hq : eraseJob bestJob.jobId s.readyQueue with _ | ⟨next, rest2⟩ <;>
            dsimp only
          · intro hj2
            rw [backgroundOrIdle_ready] at hj2
            exact absurd hj2 (List.not_mem_nil j2)
          · intro hj2
            rcases normalExec_ready_core { s with readyQueue := next :: rest2 }
                next t (by simp) j2 hj2 with ⟨j0, hj0, hc⟩
            rw [hq] at hsub0
            exact ⟨j0, hsub0.mem hj0, hc⟩
        · rw [if_neg hpol]
          rcases hq : s.readyQueue with _ | ⟨j1, _ | ⟨second, rest2⟩⟩ <;> dsimp only
          · intro hj2
            rw [backgroundOrIdle_ready, hq] at hj2
            exact absurd hj2 (List.not_mem_nil j2)
          · intro hj2
            rw [backgroundOrIdle_ready, hq] at hj2
            exact ⟨j2, hj2, Job.sameCore_refl j2⟩
          · intro hj2
            have hm2 : second ∈ s.readyQueue := by rw [hq]; simp
            rw [← hq]
            exact normalExec_ready_core s second t hm2 j2 hj2
    · rw [if_neg hsrv]
      intro hj2
      exact normalExec_ready_core s bestJob t hbmem j2 hj2

/-- Helper: one continuing tick preserves the server invariant. -/
theorem serverInv_step (cfg : SchedConfig)
    (hcfg : ∀ tk ∈ cfg.periodicTasks, tk.id = SERVER_TASK_ID →
      tk = serverTaskDefinition)
    (hcnt : countServerTasks cfg.periodicTasks ≤ 1)
    (s : SchedState) (t : Int) (ht : 0 ≤ t) (hinv : ServerInv s t)
    {s1 : SchedState} (htick : tick cfg s t = .ok s1) :
    ServerInv s1 (t + 1) := by
  rcases serverInv_mid cfg hcfg hcnt s t ht hinv with ⟨hc, hn, hb, hw⟩
  unfold tick at htick
  rcases deadlineCheckPhase_ok htick with ⟨hs1, _⟩
  subst hs1
  show ServerInv
    (executePhase cfg
      { arrivalsState cfg s t with
        readyQueue :=
          pickNextJob cfg.algo (arrivalsState cfg s t).readyQueue t } t) (t + 1)
  set S4 : SchedState :=
    { arrivalsState cfg s t with
      readyQueue := pickNextJob cfg.algo (arrivalsState cfg s t).readyQueue t }
    with hS4
  have hperm : S4.readyQueue.Perm (arrivalsState cfg s t).readyQueue :=
    List.perm_insertionSort _ _
  have hnd4 : (S4.readyQueue.map Job.jobId).Nodup :=
    ((hperm.map Job.jobId).nodup_iff).mpr hn
  have hcnt4 : (S4.jobCounter) = (arrivalsState cfg s t).jobCounter := rfl
  unfold ServerInv
  refine ⟨?_, ?_, ?_, ?_⟩
  · calc countServer (executePhase cfg S4 t).readyQueue
        ≤ countServer S4.readyQueue := executePhase_server_count cfg S4 t hnd4
      _ = countServer (arrivalsState cfg s t).readyQueue := countServer_perm hperm
      _ ≤ 1 := hc
  · exact executePhase_ready_nodup cfg S4 t hnd4
  · intro j2 hj2
    rcases executePhase_ready_core cfg S4 t j2 hj2 with ⟨j0, hj0, hcore⟩
    have hj0m : j0 ∈ (arrivalsState cfg s t).readyQueue := hperm.subset hj0
    have hb0 := hb j0 hj0m
    rw [executePhase_jobCounter, hcnt4, hcore.1]
    exact hb0
  · intro j2 hj2 hid
    rcases executePhase_ready_core cfg S4 t j2 hj2 with ⟨j0, hj0, hcore⟩
    have hj0m : j0 ∈ (arrivalsState cfg s t).readyQueue := hperm.subset hj0
    have hid0 : j0.task.id = SERVER_TASK_ID := by
      rw [← hcore.2.1]
      exact hid
    rcases hw j0 hj0m hid0 with ⟨w1, w2, w3, w4, w5, w6⟩
    rw [hcore.2.1, hcore.2.2.1, hcore.2.2.2]
    exact ⟨w1, w2, w3, w4, by omega, by omega⟩

/-- Helper: the server invariant holds at every reachable engine state. -/
theorem serverInv_reach (cfg : SchedConfig)
    (hcfg : ∀ tk ∈ cfg.periodicTasks, tk.id = SERVER_TASK_ID →
      tk = serverTaskDefinition)
    (hcnt : countServerTasks cfg.periodicTasks ≤ 1) :
    ∀ (k : Nat) (s : SchedState),
      stateBefore cfg k = some s → ServerInv s (Int.ofNat k) := by
  intro k
  induction k with
  | zero =>
    intro s h
    unfold stateBefore at h
    simp only [Option.some.injEq] at h
    subst h
    unfold ServerInv
    refine ⟨?_, ?_, ?_, ?_⟩ <;> simp [initState, countServer]
  | succ k ih =>
    intro s h
    unfold stateBefore at h
    cases hprev : stateBefore cfg k with
    | none =>
      rw [hprev] at h
      exact absurd h (by simp)
    | some s0 =>
      rw [hprev] at h
      dsimp only at h
      cases htick : tick cfg s0 (Int.ofNat k) with
      | ok s1 =>
        rw [htick] at h
        dsimp only at h
        simp only [Option.some.injEq] at h
        subst h
        have hstep := serverInv_step cfg hcfg hcnt s0 (Int.ofNat k)
          (Int.ofNat_nonneg k) (ih s0 hprev) htick
        have hcast : (Int.ofNat (k + 1)) = Int.ofNat k + 1 := rfl
        rw [hcast]
        exact hstep
      | aborted s1 =>
        rw [htick] at h
        dsimp only at h
        exact absurd h (by simp)

/-- C10: in every run of the engine built by the constructor with a Poller
or Deferrable policy on user tasks that avoid the reserved id 999, the
ready queue after the expired-server cleanup and arrival steps of a tick
contains at most one job of the synthesized server task; consequently,
when the server job heads the sorted ready queue, no other queue position
(in particular index 1, used on a Deferrable yield) holds a server job. -/
theorem c10_server_instance_unique (pTasks aTasks : List Task) (algo : AlgoKind)
    (policy : String)
    (hpol : policy = "Poller" ∨ policy = "Deferrable")
    (hids : ∀ tk ∈ pTasks, tk.id ≠ SERVER_TASK_ID)
    (k : Nat) (s : SchedState)
    (hreach : stateBefore (mkScheduler pTasks aTasks algo policy) k = some s) :
    countServer
        (arrivalsState (mkScheduler pTasks aTasks algo policy) s
          (Int.ofNat k)).readyQueue ≤ 1 ∧
      ∀ srv rest,
        pickNextJob algo
            (arrivalsState (mkScheduler pTasks aTasks algo policy) s
              (Int.ofNat k)).readyQueue (Int.ofNat k) = srv :: rest →
        srv.task.id = SERVER_TASK_ID → ∀ j ∈ rest, j.task.id ≠ SERVER_TASK_ID := by
  have hserver : hasServer policy := hpol
  have hptasks : (mkScheduler pTasks aTasks algo policy).periodicTasks =
      pTasks ++ [serverTaskDefinition] := by
    unfold mkScheduler
    dsimp only
    rw [if_pos hserver]
  have hcfg : ∀ tk ∈ (mkScheduler pTasks aTasks algo policy).periodicTasks,
      tk.id = SERVER_TASK_ID → tk = serverTaskDefinition := by
    rw [hptasks]
    intro tk htk hid
    rcases List.mem_append.mp htk with h | h
    · exact absurd hid (hids tk h)
    · simpa using h
  have hcnt : countServerTasks (mkScheduler pTasks aTasks algo policy).periodicTasks
      ≤ 1 := by
    rw [hptasks]
    unfold countServerTasks
    rw [List.filter_append]
    have hz : pTasks.filter (fun tk => decide (tk.id = SERVER_TASK_ID)) = [] := by
      rw [List.filter_eq_nil_iff]
      intro tk htk
      simpa using hids tk htk
    rw [hz]
    decide
  have hinv := serverInv_reach (mkScheduler pTasks aTasks algo policy) hcfg hcnt k s
    hreach
  have hmid := serverInv_mid (mkScheduler pTasks aTasks algo policy) hcfg hcnt s
    (Int.ofNat k) (Int.ofNat_nonneg k) hinv
  refine ⟨hmid.1, ?_⟩
  intro srv rest hsort hsrv j hj
  have hperm : (pickNextJob algo
      (arrivalsState (mkScheduler pTasks aTasks algo policy) s
        (Int.ofNat k)).readyQueue (Int.ofNat k)).Perm
      (arrivalsState (mkScheduler pTasks aTasks algo policy) s
        (Int.ofNat k)).readyQueue :=
    List.perm_insertionSort _ _
  have hcnt2 : countServer (srv :: rest) ≤ 1 := by
    rw [← hsort, countServer_perm hperm]
    exact hmid.1
  rw [countServer_cons_server hsrv] at hcnt2
  have hrest : countServer rest = 0 := by omega
  exact not_server_of_countServer_zero hrest j hj

/-- C10 witness: the uniqueness theorem at tick 0 of a concrete Poller
configuration. -/
theorem c10_server_instance_unique_witness :
    countServer
        (arrivalsState (mkScheduler [T1c] [] .RM "Poller") initState
          (Int.ofNat 0)).readyQueue ≤ 1 :=
  (c10_server_instance_unique [T1c] [] .RM "Poller" (Or.inl rfl) (by decide) 0
    initState rfl).1

end RTS
